import Mathlib

/-!
Verification of the Transcript Fusion & Subtitle Interchange Engine
(FunClip, Windows edition).

The development shallowly embeds the Python source:

* `src/models/speaker_model.py` — `find_speaker_for_time` (the interval
  overlap resolver) and `combine_with_asr` (the fusion engine);
* `src/processors/subtitle_processor.py` — `generate_srt` (serializer),
  `parse_srt_content` (parser), `filter_by_speaker`, `merge_segments`.

Python strings are embedded as `List Char`; Python floats (time offsets in
seconds) are embedded as exact rationals `ℚ`; Python dicts in insertion
order are embedded as association lists.  Functions that the source file
lost to truncation (`_seconds_to_srt_time`, `_srt_time_to_seconds`, the
body of `merge_segments`) are modelled from the specification and marked
as such on their doc comments.
-/

/-- Python strings are embedded as lists of characters. -/
abbrev Str := List Char

/-- Converts a Lean string literal into the character-list embedding. -/
def strOf (s : String) : Str := s.data

/-- Characters stripped by Python `str.strip()` and matched by the regex
class for whitespace (space, tab, newline, carriage return, vertical tab,
form feed). -/
def isPySpace (c : Char) : Bool :=
  c = ' ' || c = '\t' || c = '\n' || c = '\r' || c = '\x0b' || c = '\x0c'

/-- Removes leading Python whitespace (the left half of `str.strip()`). -/
def trimLead (s : Str) : Str := s.dropWhile isPySpace

/-- Removes trailing Python whitespace (the right half of `str.strip()`). -/
def trimTrail (s : Str) : Str := (s.reverse.dropWhile isPySpace).reverse

/-- Embedding of Python `str.strip()` with no arguments. -/
def pyStrip (s : Str) : Str := trimTrail (trimLead s)

/-- One diarization span, as stored in the per-speaker lists built by
`SpeakerModel._parse_speaker_result` and consumed by
`SpeakerModel._find_speaker_for_time` (only the `start_time` and
`end_time` keys are ever read by the resolver). -/
structure SpkSpan where
  start_time : ℚ
  end_time : ℚ
deriving DecidableEq, Repr

/-- One utterance/sentence dict as exchanged between the ASR result, the
fusion engine and the subtitle serializer: keys `start_time`, `end_time`,
`text`, `speaker` (the `speaker` key defaults to the empty string). -/
structure Sentence where
  start_time : ℚ
  end_time : ℚ
  text : Str
  speaker : Str
deriving DecidableEq, Repr

/-- A diarization result: the `speaker_segments` dict, embedded as an
association list in insertion (iteration) order. -/
abbrev DiarSegments := List (Str × List SpkSpan)

/-- The overlap the source computes for one span:
`min(end_time, segment["end_time"]) - max(start_time, segment["start_time"])`
(note: not clamped at zero in the code). -/
def spanOverlap (st en : ℚ) (seg : SpkSpan) : ℚ :=
  min en seg.end_time - max st seg.start_time

/-- The inner loop of `_find_speaker_for_time`: folds one speaker's span
list over the running `(max_overlap, best_speaker)` state, updating the
state whenever a single span's overlap strictly exceeds the running
maximum. -/
def findStepSpans (st en : ℚ) (sid : Str) (acc : ℚ × Str) (spans : List SpkSpan) : ℚ × Str :=
  spans.foldl
    (fun a seg => if a.1 < spanOverlap st en seg then (spanOverlap st en seg, sid) else a) acc

/-- The outer loop of `_find_speaker_for_time`: folds over the speakers in
dict iteration order. -/
def findSpeakerAux (st en : ℚ) (acc : ℚ × Str) (segs : DiarSegments) : ℚ × Str :=
  segs.foldl (fun a p => findStepSpans st en p.1 a p.2) acc

/-- Embedding of `SpeakerModel._find_speaker_for_time`: the state starts
at `(0, "spk0")` and the final `best_speaker` component is returned. -/
def find_speaker_for_time (st en : ℚ) (segs : DiarSegments) : Str :=
  (findSpeakerAux st en (0, strOf "spk0") segs).2

/-- Embedding of `SpeakerModel.combine_with_asr`: every ASR sentence gets
its `speaker` key set to the resolver's answer for its time span; nothing
is dropped, reordered or otherwise changed. -/
def combine_with_asr (sentences : List Sentence) (segs : DiarSegments) : List Sentence :=
  sentences.map fun s =>
    { s with speaker := find_speaker_for_time s.start_time s.end_time segs }

/-- Spec-side definition (§4.2 of the specification, for comparison with
the code): a speaker's total overlap with an utterance is the sum over the
speaker's spans of `max 0 (min u.end span.end - max u.start span.start)`. -/
def specTotalOverlap (st en : ℚ) (spans : List SpkSpan) : ℚ :=
  (spans.map fun seg => max 0 (spanOverlap st en seg)).sum

theorem findStepSpans_spec (st en : ℚ) (sid : Str) :
    ∀ (spans : List SpkSpan) (acc : ℚ × Str),
      acc.1 ≤ (findStepSpans st en sid acc spans).1 ∧
      (∀ seg ∈ spans, spanOverlap st en seg ≤ (findStepSpans st en sid acc spans).1) ∧
      (findStepSpans st en sid acc spans = acc ∨
        ((findStepSpans st en sid acc spans).2 = sid ∧
          ∃ seg ∈ spans, spanOverlap st en seg = (findStepSpans st en sid acc spans).1 ∧
            acc.1 < (findStepSpans st en sid acc spans).1)) := by
  intro spans
  induction spans with
  | nil => intro acc; simp [findStepSpans]
  | cons seg rest ih =>
    intro acc
    by_cases h : acc.1 < spanOverlap st en seg
    · have hstep : findStepSpans st en sid acc (seg :: rest)
          = findStepSpans st en sid (spanOverlap st en seg, sid) rest := by
        simp [findStepSpans, h]
      obtain ⟨ih1, ih2, ih3⟩ := ih (spanOverlap st en seg, sid)
      rw [hstep]
      refine ⟨by simpa using le_trans (le_of_lt h) ih1, ?_, ?_⟩
      · intro s hs
        rcases List.mem_cons.mp hs with rfl | hs
        · simpa using ih1
        · exact ih2 s hs
      · rcases ih3 with heq | ⟨hsid, s, hs, hval, hlt⟩
        · rw [heq]
          exact Or.inr ⟨rfl, seg, by simp, by simp, h⟩
        · exact Or.inr ⟨hsid, s, by simp [hs], hval, lt_trans h (by simpa using hlt)⟩
    · have hstep : findStepSpans st en sid acc (seg :: rest)
          = findStepSpans st en sid acc rest := by
        simp [findStepSpans, h]
      obtain ⟨ih1, ih2, ih3⟩ := ih acc
      rw [hstep]
      refine ⟨ih1, ?_, ?_⟩
      · intro s hs
        rcases List.mem_cons.mp hs with rfl | hs
        · exact le_trans (le_of_not_lt h) ih1
        · exact ih2 s hs
      · rcases ih3 with heq | ⟨hsid, s, hs, hval, hlt⟩
        · exact Or.inl heq
        · exact Or.inr ⟨hsid, s, by simp [hs], hval, hlt⟩

theorem findStepSpans_no_update (st en : ℚ) (sid : Str) :
    ∀ (spans : List SpkSpan) (acc : ℚ × Str),
      (∀ seg ∈ spans, spanOverlap st en seg ≤ acc.1) →
      findStepSpans st en sid acc spans = acc := by
  intro spans
  induction spans with
  | nil => intro acc _; simp [findStepSpans]
  | cons seg rest ih =>
    intro acc h
    have h1 : ¬ acc.1 < spanOverlap st en seg := not_lt.mpr (h seg (by simp))
    have hstep : findStepSpans st en sid acc (seg :: rest)
        = findStepSpans st en sid acc rest := by
      simp [findStepSpans, h1]
    rw [hstep]
    exact ih acc fun s hs => h s (by simp [hs])

theorem findStepSpans_attains (st en : ℚ) (sid : Str) (spans : List SpkSpan)
    (acc : ℚ × Str) (v : ℚ) (hacc : acc.1 < v)
    (hex : ∃ seg ∈ spans, spanOverlap st en seg = v)
    (hub : ∀ seg ∈ spans, spanOverlap st en seg ≤ v) :
    findStepSpans st en sid acc spans = (v, sid) := by
  obtain ⟨h1, h2, h3⟩ := findStepSpans_spec st en sid spans acc
  obtain ⟨seg0, hseg0, hval0⟩ := hex
  have hge : v ≤ (findStepSpans st en sid acc spans).1 := hval0 ▸ h2 seg0 hseg0
  rcases h3 with heq | ⟨hsid, s, hs, hval, _⟩
  · exact absurd (lt_of_lt_of_le hacc hge) (by rw [heq]; exact lt_irrefl _)
  · have hle : (findStepSpans st en sid acc spans).1 ≤ v := hval ▸ hub s hs
    exact Prod.ext (le_antisymm hle hge) hsid

theorem findSpeakerAux_spec (st en : ℚ) :
    ∀ (segs : DiarSegments) (acc : ℚ × Str),
      acc.1 ≤ (findSpeakerAux st en acc segs).1 ∧
      (∀ p ∈ segs, ∀ seg ∈ p.2, spanOverlap st en seg ≤ (findSpeakerAux st en acc segs).1) ∧
      (findSpeakerAux st en acc segs = acc ∨
        ∃ p ∈ segs, (findSpeakerAux st en acc segs).2 = p.1 ∧
          ∃ seg ∈ p.2, spanOverlap st en seg = (findSpeakerAux st en acc segs).1 ∧
            acc.1 < (findSpeakerAux st en acc segs).1) := by
  intro segs
  induction segs with
  | nil => intro acc; simp [findSpeakerAux]
  | cons p rest ih =>
    intro acc
    have hstep : findSpeakerAux st en acc (p :: rest)
        = findSpeakerAux st en (findStepSpans st en p.1 acc p.2) rest := by
      simp [findSpeakerAux]
    obtain ⟨in1, in2, in3⟩ := findStepSpans_spec st en p.1 p.2 acc
    obtain ⟨ih1, ih2, ih3⟩ := ih (findStepSpans st en p.1 acc p.2)
    rw [hstep]
    refine ⟨le_trans in1 ih1, ?_, ?_⟩
    · intro q hq seg hseg
      rcases List.mem_cons.mp hq with rfl | hq
      · exact le_trans (in2 seg hseg) ih1
      · exact ih2 q hq seg hseg
    · rcases ih3 with heq | ⟨q, hq, hname, seg, hseg, hval, hlt⟩
      · rw [heq]
        rcases in3 with heq2 | ⟨hname, seg, hseg, hval, hlt⟩
        · exact Or.inl heq2
        · exact Or.inr ⟨p, by simp, hname, seg, hseg, hval, hlt⟩
      · exact Or.inr ⟨q, by simp [hq], hname, seg, hseg, hval, lt_of_le_of_lt in1 hlt⟩

theorem findSpeakerAux_no_update (st en : ℚ) :
    ∀ (segs : DiarSegments) (acc : ℚ × Str),
      (∀ p ∈ segs, ∀ seg ∈ p.2, spanOverlap st en seg ≤ acc.1) →
      findSpeakerAux st en acc segs = acc := by
  intro segs
  induction segs with
  | nil => intro acc _; simp [findSpeakerAux]
  | cons p rest ih =>
    intro acc h
    have h1 : findStepSpans st en p.1 acc p.2 = acc :=
      findStepSpans_no_update st en p.1 p.2 acc (h p (by simp))
    have hstep : findSpeakerAux st en acc (p :: rest)
        = findSpeakerAux st en (findStepSpans st en p.1 acc p.2) rest := by
      simp [findSpeakerAux]
    rw [hstep, h1]
    exact ih acc fun q hq => h q (by simp [hq])

theorem findSpeakerAux_append (st en : ℚ) (acc : ℚ × Str) (s1 s2 : DiarSegments) :
    findSpeakerAux st en acc (s1 ++ s2) = findSpeakerAux st en (findSpeakerAux st en acc s1) s2 := by
  simp [findSpeakerAux, List.foldl_append]

/-- Sum-of-clamped-overlaps is zero exactly when every raw span overlap is
non-positive. -/
theorem specTotalOverlap_eq_zero (st en : ℚ) :
    ∀ spans : List SpkSpan,
      specTotalOverlap st en spans = 0 ↔ ∀ seg ∈ spans, spanOverlap st en seg ≤ 0 := by
  intro spans
  induction spans with
  | nil => simp [specTotalOverlap]
  | cons seg rest ih =>
    have hsum : specTotalOverlap st en (seg :: rest)
        = max 0 (spanOverlap st en seg) + specTotalOverlap st en rest := by
      simp [specTotalOverlap]
    have hn1 : 0 ≤ max 0 (spanOverlap st en seg) := le_max_left _ _
    have hn2 : 0 ≤ specTotalOverlap st en rest := by
      refine List.sum_nonneg ?_
      intro x hx
      obtain ⟨s, _, rfl⟩ := List.mem_map.mp hx
      exact le_max_left _ _
    constructor
    · intro h
      have h1 : max 0 (spanOverlap st en seg) = 0 ∧ specTotalOverlap st en rest = 0 := by
        constructor <;> nlinarith [hsum ▸ h]
      intro s hs
      rcases List.mem_cons.mp hs with rfl | hs
      · exact max_eq_left_iff.mp h1.1
      · exact (ih.mp h1.2) s hs
    · intro h
      have h1 : max 0 (spanOverlap st en seg) = 0 := max_eq_left_iff.mpr (h seg (by simp))
      have h2 : specTotalOverlap st en rest = 0 := ih.mpr fun s hs => h s (by simp [hs])
      rw [hsum, h1, h2, add_zero]

/-- Concrete diarization input for claim C2: speaker A covers the
utterance with two spans totalling 6 seconds, speaker B with one span of
4 seconds. -/
def exC2 : DiarSegments :=
  [(strOf "A", [SpkSpan.mk 0 3, SpkSpan.mk 3 6]), (strOf "B", [SpkSpan.mk 5 9])]

/-- C2 counterexample: on utterance span `[0,10)` speaker A has TOTAL
overlap 6 (two spans of 3) while speaker B has total overlap 4 (one
span), yet the code returns B, because `_find_speaker_for_time` compares
single-span overlaps, never summing a speaker's spans.  The claim, which
says the speaker with maximal total overlap wins, is therefore false. -/
theorem C2_counterexample :
    find_speaker_for_time 0 10 exC2 = strOf "B" ∧
    specTotalOverlap 0 10 [SpkSpan.mk 0 3, SpkSpan.mk 3 6] = 6 ∧
    specTotalOverlap 0 10 [SpkSpan.mk 5 9] = 4 ∧
    strOf "B" ≠ strOf "A" := by with_unfolding_all decide

/-- C2 amended: the resolver maximizes the overlap of a SINGLE span, not
the per-speaker total: every individual span's overlap is bounded by the
final running maximum, and when that maximum is positive the returned
speaker owns a span attaining it.  A speaker whose several spans merely
sum to more than any single span of another speaker need not win. -/
theorem C2_theorem (st en : ℚ) (segs : DiarSegments) :
    (∀ p ∈ segs, ∀ seg ∈ p.2,
      spanOverlap st en seg ≤ (findSpeakerAux st en (0, strOf "spk0") segs).1) ∧
    (0 < (findSpeakerAux st en (0, strOf "spk0") segs).1 →
      ∃ p ∈ segs, find_speaker_for_time st en segs = p.1 ∧
        ∃ seg ∈ p.2,
          spanOverlap st en seg = (findSpeakerAux st en (0, strOf "spk0") segs).1) := by
  obtain ⟨h1, h2, h3⟩ := findSpeakerAux_spec st en segs (0, strOf "spk0")
  refine ⟨h2, ?_⟩
  intro hpos
  rcases h3 with heq | ⟨p, hp, hname, seg, hseg, hval, _⟩
  · rw [heq] at hpos
    exact absurd hpos (by norm_num)
  · exact ⟨p, hp, hname, seg, hseg, hval⟩

/-- C2 witness: the theorem applied to the concrete C2 input. -/
theorem C2_witness :
    spanOverlap 0 10 (SpkSpan.mk 5 9) ≤ (findSpeakerAux 0 10 (0, strOf "spk0") exC2).1 ∧
    ∃ p ∈ exC2, find_speaker_for_time 0 10 exC2 = p.1 ∧
      ∃ seg ∈ p.2, spanOverlap 0 10 seg = (findSpeakerAux 0 10 (0, strOf "spk0") exC2).1 :=
  ⟨(C2_theorem 0 10 exC2).1 (strOf "B", [SpkSpan.mk 5 9]) (by with_unfolding_all decide) (SpkSpan.mk 5 9) (by with_unfolding_all decide),
   (C2_theorem 0 10 exC2).2 (by with_unfolding_all decide)⟩

/-- Concrete ASR input for claim C5: a single zero-duration utterance. -/
def exC5asr : List Sentence := [Sentence.mk 5 5 (strOf "x") (strOf "")]

/-- Concrete diarization input for claim C5. -/
def exC5segs : DiarSegments := [(strOf "A", [SpkSpan.mk 0 10])]

/-- C5 counterexample: `combine_with_asr` keeps a zero-duration utterance
(assigning it the sentinel speaker) instead of dropping it before
matching, so the claim that zero-duration utterances are dropped is
false. -/
theorem C5_counterexample :
    combine_with_asr exC5asr exC5segs = [Sentence.mk 5 5 (strOf "x") (strOf "spk0")] ∧
    (Sentence.mk 5 5 (strOf "x") (strOf "")).end_time
      - (Sentence.mk 5 5 (strOf "x") (strOf "")).start_time = 0 ∧
    combine_with_asr exC5asr exC5segs ≠ [] := by with_unfolding_all decide

/-- C5 amended: fusion applies the resolver independently to every
utterance and returns a new list of the same length and order, with
start, end and text unchanged and the speaker field set to the resolver's
answer; it never fails and assigns the sentinel when nothing matches, but
zero-duration utterances are NOT dropped — they are fused like any
other. -/
theorem C5_theorem (asr : List Sentence) (segs : DiarSegments) :
    (combine_with_asr asr segs).length = asr.length ∧
    ∀ p ∈ (combine_with_asr asr segs).zip asr,
      p.1.start_time = p.2.start_time ∧ p.1.end_time = p.2.end_time ∧
      p.1.text = p.2.text ∧
      p.1.speaker = find_speaker_for_time p.2.start_time p.2.end_time segs := by
  constructor
  · simp [combine_with_asr]
  · induction asr with
    | nil => simp [combine_with_asr]
    | cons s rest ih =>
      intro p hp
      rcases List.mem_cons.mp hp with rfl | hp
      · exact ⟨rfl, rfl, rfl, rfl⟩
      · exact ih p hp

/-- C5 witness: the theorem applied to the concrete C5 input. -/
theorem C5_witness :
    (combine_with_asr exC5asr exC5segs).length = exC5asr.length ∧
    ((Sentence.mk 5 5 (strOf "x") (strOf "spk0")).start_time
        = (Sentence.mk 5 5 (strOf "x") (strOf "")).start_time ∧
      (Sentence.mk 5 5 (strOf "x") (strOf "spk0")).end_time
        = (Sentence.mk 5 5 (strOf "x") (strOf "")).end_time ∧
      (Sentence.mk 5 5 (strOf "x") (strOf "spk0")).text
        = (Sentence.mk 5 5 (strOf "x") (strOf "")).text ∧
      (Sentence.mk 5 5 (strOf "x") (strOf "spk0")).speaker
        = find_speaker_for_time (Sentence.mk 5 5 (strOf "x") (strOf "")).start_time
            (Sentence.mk 5 5 (strOf "x") (strOf "")).end_time exC5segs) :=
  ⟨(C5_theorem exC5asr exC5segs).1,
   (C5_theorem exC5asr exC5segs).2
     (Sentence.mk 5 5 (strOf "x") (strOf "spk0"), Sentence.mk 5 5 (strOf "x") (strOf ""))
     (by with_unfolding_all decide)⟩

/-- Concrete diarization input for claim C6: speakers A and B tie at a
positive total overlap of 6 with the utterance span, A first in iteration
order. -/
def exC6 : DiarSegments :=
  [(strOf "A", [SpkSpan.mk 0 3, SpkSpan.mk 3 6]), (strOf "B", [SpkSpan.mk 0 6])]

/-- C6 counterexample: on utterance `[0,6)` speakers A and B have equal
positive total overlap (6), A comes first in iteration order, yet the
code returns B — it breaks ties on the maximal SINGLE-span overlap
(A's best span overlaps only 3, B's overlaps 6), not first-encountered
on total overlap.  The claimed tie-break rule is therefore false. -/
theorem C6_counterexample :
    find_speaker_for_time 0 6 exC6 = strOf "B" ∧
    specTotalOverlap 0 6 [SpkSpan.mk 0 3, SpkSpan.mk 3 6]
      = specTotalOverlap 0 6 [SpkSpan.mk 0 6] ∧
    (0:ℚ) < specTotalOverlap 0 6 [SpkSpan.mk 0 6] ∧
    (exC6.map Prod.fst).head? = some (strOf "A") ∧
    strOf "B" ≠ strOf "A" := by with_unfolding_all decide

/-- C6 amended: the sentinel `"spk0"` is returned whenever the maximum
total overlap is zero (equivalently: no span has positive raw overlap),
and — provided no diarized speaker is itself literally named `"spk0"` —
only then; but a positive tie is broken on the maximal SINGLE-span
overlap, first-encountered-wins: the first speaker in iteration order
owning a span of maximal overlap (all earlier speakers' spans being
strictly smaller) is returned. -/
theorem C6_theorem (st en : ℚ) (segs : DiarSegments) :
    ((∀ p ∈ segs, specTotalOverlap st en p.2 = 0) ↔
      (∀ p ∈ segs, ∀ seg ∈ p.2, spanOverlap st en seg ≤ 0)) ∧
    ((∀ p ∈ segs, ∀ seg ∈ p.2, spanOverlap st en seg ≤ 0) →
      find_speaker_for_time st en segs = strOf "spk0") ∧
    (strOf "spk0" ∉ segs.map Prod.fst →
      find_speaker_for_time st en segs = strOf "spk0" →
      ∀ p ∈ segs, ∀ seg ∈ p.2, spanOverlap st en seg ≤ 0) ∧
    (∀ (segs1 segs2 : DiarSegments) (p : Str × List SpkSpan) (v : ℚ),
      segs = segs1 ++ p :: segs2 → 0 < v →
      (∀ q ∈ segs1, ∀ seg ∈ q.2, spanOverlap st en seg < v) →
      (∃ seg ∈ p.2, spanOverlap st en seg = v) →
      (∀ q ∈ segs, ∀ seg ∈ q.2, spanOverlap st en seg ≤ v) →
      find_speaker_for_time st en segs = p.1) := by
  refine ⟨?_, ?_, ?_, ?_⟩
  · constructor
    · intro h p hp seg hseg
      exact ((specTotalOverlap_eq_zero st en p.2).mp (h p hp)) seg hseg
    · intro h p hp
      exact (specTotalOverlap_eq_zero st en p.2).mpr (h p hp)
  · intro h
    have := findSpeakerAux_no_update st en segs (0, strOf "spk0") (by simpa using h)
    simp [find_speaker_for_time, this]
  · intro hno hfind p hp seg hseg
    by_contra hov
    push_neg at hov
    obtain ⟨h1, h2, h3⟩ := findSpeakerAux_spec st en segs (0, strOf "spk0")
    rcases h3 with heq | ⟨q, hq, hname, _, _, _, _⟩
    · have : spanOverlap st en seg ≤ 0 := by
        have := h2 p hp seg hseg
        rw [heq] at this
        simpa using this
      exact absurd hov (not_lt.mpr this)
    · refine absurd ?_ hno
      rw [← hfind, find_speaker_for_time, hname]
      exact List.mem_map.mpr ⟨q, hq, rfl⟩
  · intro segs1 segs2 p v hsplit hv hlt1 hex hub
    have hp_mem : p ∈ segs := by rw [hsplit]; simp
    have hstep1 : findSpeakerAux st en (0, strOf "spk0") segs
        = findSpeakerAux st en
            (findStepSpans st en p.1 (findSpeakerAux st en (0, strOf "spk0") segs1) p.2)
            segs2 := by
      rw [hsplit, findSpeakerAux_append]
      simp [findSpeakerAux]
    have hr1 : (findSpeakerAux st en (0, strOf "spk0") segs1).1 < v := by
      obtain ⟨_, _, h3⟩ := findSpeakerAux_spec st en segs1 (0, strOf "spk0")
      rcases h3 with heq | ⟨q, hq, _, seg, hseg, hval, _⟩
      · rw [heq]; exact hv
      · rw [← hval]
        exact hlt1 q hq seg hseg
    have hr2 : findStepSpans st en p.1 (findSpeakerAux st en (0, strOf "spk0") segs1) p.2
        = (v, p.1) := by
      refine findStepSpans_attains st en p.1 p.2 _ v hr1 hex ?_
      intro seg hseg
      exact hub p hp_mem seg hseg
    have hr3 : findSpeakerAux st en (v, p.1) segs2 = (v, p.1) := by
      refine findSpeakerAux_no_update st en segs2 (v, p.1) ?_
      intro q hq seg hseg
      exact hub q (by rw [hsplit]; simp [hq]) seg hseg
    rw [find_speaker_for_time, hstep1, hr2, hr3]

/-- Diarization input used by the C6 witness: a single speaker whose span
does not touch the utterance. -/
def exC6far : DiarSegments := [(strOf "C", [SpkSpan.mk 10 12])]

/-- Diarization input used by the C6 witness: B owns the maximal single
span. -/
def exC6two : DiarSegments :=
  [(strOf "A", [SpkSpan.mk 0 2]), (strOf "B", [SpkSpan.mk 2 7])]

/-- C6 witness: the amended theorem applied at concrete inputs, each
hypothesis discharged by evaluation. -/
theorem C6_witness :
    find_speaker_for_time 0 6 exC6far = strOf "spk0" ∧
    spanOverlap 0 6 (SpkSpan.mk 10 12) ≤ 0 ∧
    find_speaker_for_time 0 10 exC6two = strOf "B" :=
  ⟨(C6_theorem 0 6 exC6far).2.1 (by with_unfolding_all decide),
   (C6_theorem 0 6 exC6far).2.2.1 (by with_unfolding_all decide)
     (by with_unfolding_all decide) (strOf "C", [SpkSpan.mk 10 12])
     (by with_unfolding_all decide) (SpkSpan.mk 10 12) (by with_unfolding_all decide),
   (C6_theorem 0 10 exC6two).2.2.2 [(strOf "A", [SpkSpan.mk 0 2])] []
     (strOf "B", [SpkSpan.mk 2 7]) 5 rfl (by with_unfolding_all decide)
     (by with_unfolding_all decide) (by with_unfolding_all decide)
     (by with_unfolding_all decide)⟩

/-- Modelled from the spec: the text concatenation step of
`SubtitleProcessor.merge_segments`, whose body is lost to truncation in
the source file.  Per §4.4 merging extends the accumulator's end to the
new utterance's end and concatenates the texts with a single separating
space. -/
def mergeOne (acc u : Sentence) : Sentence :=
  { acc with end_time := u.end_time, text := acc.text ++ ' ' :: u.text }

/-- Modelled from the spec: the single left-to-right pass of
`SubtitleProcessor.merge_segments` (body lost to truncation in the
source).  Per §4.4 the open accumulator absorbs the next utterance iff
the speakers agree, the gap `u.start - acc.end` is at most `max_gap` and
the merged span `u.end - acc.start` is at most `max_duration`; otherwise
the accumulator is emitted and reopened from `u`. -/
def mergeGo (g d : ℚ) (acc : Sentence) : List Sentence → List Sentence
  | [] => [acc]
  | u :: rest =>
    if u.speaker = acc.speaker ∧ u.start_time - acc.end_time ≤ g ∧
        u.end_time - acc.start_time ≤ d
    then mergeGo g d (mergeOne acc u) rest
    else acc :: mergeGo g d u rest

/-- Modelled from the spec: `SubtitleProcessor.merge_segments` (§4.4),
whose loop body is lost to truncation in the source file.  The empty
transcript yields the empty transcript; otherwise the accumulator opens
from the first utterance. -/
def merge_segments (g d : ℚ) : List Sentence → List Sentence
  | [] => []
  | u :: rest => mergeGo g d u rest

/-- Counts adjacent speaker changes in a transcript. -/
def speakerChanges : List Sentence → ℕ
  | u :: v :: rest => (if u.speaker = v.speaker then 0 else 1) + speakerChanges (v :: rest)
  | _ => 0

theorem speakerChanges_congr (a b : Sentence) (rest : List Sentence)
    (h : a.speaker = b.speaker) :
    speakerChanges (a :: rest) = speakerChanges (b :: rest) := by
  cases rest with
  | nil => rfl
  | cons w ws => simp [speakerChanges, h]

theorem mergeGo_changes (g d : ℚ) :
    ∀ (rest : List Sentence) (acc : Sentence),
      speakerChanges (acc :: rest) + 1 ≤ (mergeGo g d acc rest).length := by
  intro rest
  induction rest with
  | nil => intro acc; simp [speakerChanges, mergeGo]
  | cons u rest ih =>
    intro acc
    by_cases h : u.speaker = acc.speaker ∧ u.start_time - acc.end_time ≤ g ∧
        u.end_time - acc.start_time ≤ d
    · rw [show mergeGo g d acc (u :: rest) = mergeGo g d (mergeOne acc u) rest from by
        simp only [mergeGo]; rw [if_pos h]]
      have hsp : (mergeOne acc u).speaker = acc.speaker := rfl
      have h1 : speakerChanges (acc :: u :: rest) = speakerChanges (u :: rest) := by
        simp [speakerChanges, h.1.symm]
      have h2 : speakerChanges (u :: rest) = speakerChanges (mergeOne acc u :: rest) :=
        speakerChanges_congr u (mergeOne acc u) rest (by rw [hsp, h.1])
      rw [h1, h2]
      exact ih (mergeOne acc u)
    · rw [show mergeGo g d acc (u :: rest) = acc :: mergeGo g d u rest from by
        simp only [mergeGo]; rw [if_neg h]]
      have h1 : speakerChanges (acc :: u :: rest) ≤ 1 + speakerChanges (u :: rest) := by
        by_cases hsp : acc.speaker = u.speaker <;> simp [speakerChanges, hsp]
      have h2 := ih u
      simp only [List.length_cons]
      omega

/-- C3: in the merger's single left-to-right pass an utterance is merged
into the open accumulator iff the speakers agree, the gap is at most
`max_gap` and the merged span is at most `max_duration` (first
conjunct, stated as the step equation); consequently adjacent utterances
with different speakers never merge regardless of the gap (second
conjunct) and an emitted cue never spans a speaker change: every
adjacent speaker change forces an additional emitted cue (third
conjunct). -/
theorem C3_theorem :
    (∀ (g d : ℚ) (acc u : Sentence) (rest : List Sentence),
      mergeGo g d acc (u :: rest)
        = if u.speaker = acc.speaker ∧ u.start_time - acc.end_time ≤ g ∧
              u.end_time - acc.start_time ≤ d
          then mergeGo g d (mergeOne acc u) rest
          else acc :: mergeGo g d u rest) ∧
    (∀ (g d : ℚ) (u v : Sentence), u.speaker ≠ v.speaker →
      merge_segments g d [u, v] = [u, v]) ∧
    (∀ (g d : ℚ) (us : List Sentence), us ≠ [] →
      speakerChanges us + 1 ≤ (merge_segments g d us).length) := by
  refine ⟨fun g d acc u rest => rfl, ?_, ?_⟩
  · intro g d u v h
    have hc : ¬(v.speaker = u.speaker ∧ v.start_time - u.end_time ≤ g ∧
        v.end_time - u.start_time ≤ d) := by
      intro hc
      exact h hc.1.symm
    simp only [merge_segments, mergeGo]
    rw [if_neg hc]
  · intro g d us hne
    cases us with
    | nil => exact absurd rfl hne
    | cons u rest => exact mergeGo_changes g d rest u

/-- Utterances used by the C3 witness. -/
def exC3a : Sentence := Sentence.mk 0 2 (strOf "a") (strOf "s1")

/-- Utterances used by the C3 witness. -/
def exC3b : Sentence := Sentence.mk 2 4 (strOf "b") (strOf "s2")

/-- C3 witness: the theorem applied to two adjacent utterances with
different speakers and zero gap — they are not merged — and to the same
two-utterance transcript for the cue-count bound. -/
theorem C3_witness :
    merge_segments 1 30 [exC3a, exC3b] = [exC3a, exC3b] ∧
    speakerChanges [exC3a, exC3b] + 1 ≤ (merge_segments 1 30 [exC3a, exC3b]).length :=
  ⟨C3_theorem.2.1 1 30 exC3a exC3b (by with_unfolding_all decide),
   C3_theorem.2.2 1 30 [exC3a, exC3b] (by with_unfolding_all decide)⟩

/-- Embedding of `SubtitleProcessor.filter_by_speaker`: if the target
speaker list is empty the processor returns a failure result (`none`);
otherwise it keeps, in order, exactly the sentences whose `speaker` is a
member of the target list. -/
def filter_by_speaker (sentences : List Sentence) (targetSpeakers : List Str) :
    Option (List Sentence) :=
  if targetSpeakers = [] then none
  else some (sentences.filter fun s => targetSpeakers.contains s.speaker)

/-- The full speaker set of a transcript (each distinct speaker once, in
first-occurrence order). -/
def speakersOf (sentences : List Sentence) : List Str :=
  (sentences.map Sentence.speaker).dedup

/-- C9 counterexample: for the empty transcript the full speaker set is
empty, so filtering the transcript on its own full speaker set yields the
failure result, not the transcript unchanged — the claim's final clause
fails at `T = []`. -/
theorem C9_counterexample :
    filter_by_speaker [] (speakersOf []) = none ∧
    filter_by_speaker [] (speakersOf []) ≠ some [] := by decide

/-- C9 amended: filtering with an empty wanted-speakers list always
produces the failure result (never an empty transcript); filtering with a
non-empty list succeeds and keeps exactly the utterances whose speaker is
in the list, preserving order; and filtering a NON-EMPTY transcript on
its full speaker set returns it unchanged (for the empty transcript the
full speaker set is itself empty, so the failure result is returned
instead). -/
theorem C9_theorem :
    (∀ T : List Sentence, filter_by_speaker T [] = none) ∧
    (∀ (T : List Sentence) (ts : List Str), ts ≠ [] →
      filter_by_speaker T ts = some (T.filter fun s => ts.contains s.speaker)) ∧
    (∀ (T : List Sentence) (ts : List Str) (l : List Sentence),
      filter_by_speaker T ts = some l →
      ∀ s : Sentence, s ∈ l ↔ s ∈ T ∧ s.speaker ∈ ts) ∧
    (∀ T : List Sentence, T ≠ [] → filter_by_speaker T (speakersOf T) = some T) := by
  refine ⟨fun T => rfl, ?_, ?_, ?_⟩
  · intro T ts hts
    simp [filter_by_speaker, hts]
  · intro T ts l hfilter s
    by_cases hts : ts = []
    · rw [hts] at hfilter
      exact absurd hfilter (by simp [filter_by_speaker])
    · simp only [filter_by_speaker, if_neg hts, Option.some.injEq] at hfilter
      subst hfilter
      simp [List.mem_filter]
  · intro T hT
    have hne : speakersOf T ≠ [] := by
      cases T with
      | nil => exact absurd rfl hT
      | cons s rest =>
        intro hcontra
        have : s.speaker ∈ speakersOf (s :: rest) := by
          simp [speakersOf, List.mem_dedup]
        rw [hcontra] at this
        exact absurd this (List.not_mem_nil _)
    rw [filter_by_speaker, if_neg hne]
    congr 1
    refine List.filter_eq_self.mpr ?_
    intro s hs
    have hmem : s.speaker ∈ speakersOf T := by
      simp only [speakersOf, List.mem_dedup, List.mem_map]
      exact ⟨s, hs, rfl⟩
    simpa [List.contains] using List.elem_iff.mpr hmem

/-- Transcript used by the C9 witness. -/
def exC9 : List Sentence :=
  [Sentence.mk 0 1 (strOf "a") (strOf "s1"), Sentence.mk 1 2 (strOf "b") (strOf "s2")]

/-- C9 witness: the amended theorem applied at concrete inputs. -/
theorem C9_witness :
    filter_by_speaker exC9 [] = none ∧
    filter_by_speaker exC9 [strOf "s1"]
      = some (exC9.filter fun s => [strOf "s1"].contains s.speaker) ∧
    ((Sentence.mk 0 1 (strOf "a") (strOf "s1")) ∈ [Sentence.mk 0 1 (strOf "a") (strOf "s1")] ↔
      (Sentence.mk 0 1 (strOf "a") (strOf "s1")) ∈ exC9 ∧
        (Sentence.mk 0 1 (strOf "a") (strOf "s1")).speaker ∈ [strOf "s1"]) ∧
    filter_by_speaker exC9 (speakersOf exC9) = some exC9 :=
  ⟨C9_theorem.1 exC9,
   C9_theorem.2.1 exC9 [strOf "s1"] (by decide),
   C9_theorem.2.2.1 exC9 [strOf "s1"] [Sentence.mk 0 1 (strOf "a") (strOf "s1")]
     (by with_unfolding_all decide) (Sentence.mk 0 1 (strOf "a") (strOf "s1")),
   C9_theorem.2.2.2 exC9 (by with_unfolding_all decide)⟩

/-- Fuel-driven decimal printer for naturals (the fuel argument only
bounds the recursion; any fuel above the value itself is enough). -/
def natStrGo : ℕ → ℕ → Str
  | 0, _ => []
  | fuel + 1, m =>
    if m < 10 then [Nat.digitChar m]
    else natStrGo fuel (m / 10) ++ [Nat.digitChar (m % 10)]

/-- Embedding of Python `str(n)` for a natural number. -/
def natStr (n : ℕ) : Str := natStrGo (n + 1) n

/-- Embedding of Python `f"{n:02d}"`: zero-pad to at least two digits. -/
def padTwo (n : ℕ) : Str := if n < 10 then '0' :: natStr n else natStr n

/-- Embedding of Python `f"{n:03d}"`: zero-pad to at least three digits. -/
def padThree (n : ℕ) : Str :=
  if n < 10 then '0' :: '0' :: natStr n
  else if n < 100 then '0' :: natStr n
  else natStr n

/-- Modelled from the spec: `SubtitleProcessor._seconds_to_srt_time`,
missing from the truncated source file.  Per §4.1 the time offset is
truncated to milliseconds and printed as `HH:MM:SS,mmm` with hours
zero-padded to at least two digits and milliseconds to three. -/
def seconds_to_srt_time (t : ℚ) : Str :=
  let total := (Int.floor (1000 * t)).toNat
  padTwo (total / 3600000) ++ ':' :: padTwo (total % 3600000 / 60000)
    ++ ':' :: padTwo (total % 60000 / 1000) ++ ',' :: padThree (total % 1000)

/-- The per-sentence loop of `SubtitleProcessor.generate_srt`: `i` is the
1-based `enumerate` counter, which advances on EVERY input sentence; a
sentence whose stripped text is empty emits nothing; otherwise the block
is index line, timestamp line, text line (speaker-tagged as
`[speaker] text` when the speaker is non-empty and `include_speaker` is
set) and a separating empty line. -/
def genAux (includeSpeaker : Bool) : ℕ → List Sentence → List Str
  | _, [] => []
  | i, s :: rest =>
    if pyStrip s.text = [] then genAux includeSpeaker (i + 1) rest
    else
      natStr i
        :: (seconds_to_srt_time s.start_time ++ strOf " --> "
              ++ seconds_to_srt_time s.end_time)
        :: (if s.speaker ≠ [] ∧ includeSpeaker = true
            then '[' :: s.speaker ++ ']' :: ' ' :: pyStrip s.text
            else pyStrip s.text)
        :: [] :: genAux includeSpeaker (i + 1) rest

/-- Embedding of Python `"\n".join(lines)`. -/
def intercalateCh (c : Char) : List Str → Str
  | [] => []
  | [l] => l
  | l :: rest => l ++ c :: intercalateCh c rest

/-- Embedding of the `srt_content` built by
`SubtitleProcessor.generate_srt` (the file content that would be written:
the accumulated lines joined with newlines).  The file-writing itself is
I/O and lies outside the embedding. -/
def generate_srt (includeSpeaker : Bool) (sentences : List Sentence) : Str :=
  intercalateCh '\n' (genAux includeSpeaker 1 sentences)

/-- Embedding of Python `s.split('\n')` (always returns at least one
piece; pieces do not contain the separator). -/
def splitOnNl : Str → List Str
  | [] => [[]]
  | c :: rest =>
    if c = '\n' then [] :: splitOnNl rest
    else
      match splitOnNl rest with
      | [] => [[c]]
      | h :: t => (c :: h) :: t

/-- A line is whitespace-only (this includes the empty line). -/
def isWsLine (l : Str) : Bool := l.all isPySpace

/-- Accumulator pass grouping lines into maximal runs of
non-whitespace-only lines; whitespace-only lines separate runs.  On the
stripped content this is exactly the block decomposition performed by
`re.split(r'\n\s*\n', content.strip())` in
`SubtitleProcessor._parse_srt_content`: that greedy pattern consumes every
maximal whitespace run containing at least two newlines, i.e. exactly the
whitespace-only lines between blocks. -/
def splitBlocksAux : List Str → List Str → List (List Str)
  | acc, [] => if acc = [] then [] else [acc.reverse]
  | acc, l :: ls =>
    if isWsLine l then
      if acc = [] then splitBlocksAux [] ls else acc.reverse :: splitBlocksAux [] ls
    else splitBlocksAux (l :: acc) ls

/-- The block decomposition of `_parse_srt_content` at the line level. -/
def splitBlocks (ls : List Str) : List (List Str) := splitBlocksAux [] ls

/-- Strips the last line's trailing whitespace (part of `block.strip()`
at the line level). -/
def stripLastLine : List Str → List Str
  | [] => []
  | [l] => [trimTrail l]
  | l :: rest => l :: stripLastLine rest

/-- Embedding of `block.strip().split('\n')` for a block given as its
list of lines: stripping the joined block trims leading whitespace of the
first line and trailing whitespace of the last line (the blocks produced
by `splitBlocks` begin and end with a non-whitespace-only line, so the
strip can consume no further). -/
def stripBlockLines : List Str → List Str
  | [] => []
  | [l] => [pyStrip l]
  | l :: rest => trimLead l :: stripLastLine rest

/-- Decimal value of a digit string (most significant first). -/
def digitsVal (s : Str) : ℕ := s.foldl (fun a c => a * 10 + (c.toNat - 48)) 0

/-- Embedding of Python `int(s)`: strip whitespace, optional sign, then a
non-empty run of decimal digits; anything else raises `ValueError`
(`none`). -/
def pyInt (s : Str) : Option ℤ :=
  let t := pyStrip s
  if t = [] then none
  else if t.head? = some '-' then
    if t.tail ≠ [] ∧ t.tail.all Char.isDigit then some (-(digitsVal t.tail : ℤ)) else none
  else if t.head? = some '+' then
    if t.tail ≠ [] ∧ t.tail.all Char.isDigit then some (digitsVal t.tail) else none
  else if t.all Char.isDigit then some (digitsVal t) else none

/-- Consumes exactly two decimal digits, returning their value and the
rest of the input. -/
def parseTwoDigits : Str → Option (ℕ × Str)
  | a :: b :: rest =>
    if a.isDigit ∧ b.isDigit
    then some ((a.toNat - 48) * 10 + (b.toNat - 48), rest)
    else none
  | _ => none

/-- Consumes exactly three decimal digits. -/
def parseThreeDigits : Str → Option (ℕ × Str)
  | a :: b :: c :: rest =>
    if a.isDigit ∧ b.isDigit ∧ c.isDigit
    then some ((a.toNat - 48) * 100 + (b.toNat - 48) * 10 + (c.toNat - 48), rest)
    else none
  | _ => none

/-- Consumes one expected character. -/
def expectCh (c : Char) : Str → Option Str
  | x :: rest => if x = c then some rest else none
  | [] => none

/-- Consumes an expected literal string. -/
def expectStr : Str → Str → Option Str
  | [], s => some s
  | c :: cs, s =>
    match expectCh c s with
    | none => none
    | some r => expectStr cs r

/-- Embedding of the fixed-width pattern `\d{2}:\d{2}:\d{2},\d{3}`
(anchored at the start, trailing input returned): the four numeric fields
and the rest. -/
def matchClock (s : Str) : Option ((ℕ × ℕ × ℕ × ℕ) × Str) :=
  match parseTwoDigits s with
  | none => none
  | some (h, s1) =>
    match expectCh ':' s1 with
    | none => none
    | some s2 =>
      match parseTwoDigits s2 with
      | none => none
      | some (m, s3) =>
        match expectCh ':' s3 with
        | none => none
        | some s4 =>
          match parseTwoDigits s4 with
          | none => none
          | some (sec, s5) =>
            match expectCh ',' s5 with
            | none => none
            | some s6 =>
              match parseThreeDigits s6 with
              | none => none
              | some (ms, rest) => some ((h, m, sec, ms), rest)

/-- Embedding of
`re.match(r'(\d{2}:\d{2}:\d{2},\d{3}) --> (\d{2}:\d{2}:\d{2},\d{3})', line)`
from `_parse_srt_content`: a prefix match whose two groups are the
12-character timestamp substrings. -/
def matchTimeLine (line : Str) : Option (Str × Str) :=
  match matchClock line with
  | none => none
  | some (_, r1) =>
    match expectStr (strOf " --> ") r1 with
    | none => none
    | some r2 =>
      match matchClock r2 with
      | none => none
      | some _ => some (line.take 12, (line.drop 17).take 12)

/-- Modelled from the spec: `SubtitleProcessor._srt_time_to_seconds`,
missing from the truncated source file.  Per §4.1 it accepts exactly the
`HH:MM:SS,mmm` pattern, fails (`FormatError`, embedded as `none`) when
the pattern does not match exactly or minutes/seconds exceed 59, and
returns the offset in seconds. -/
def srt_time_to_seconds (s : Str) : Option ℚ :=
  match matchClock s with
  | some ((h, m, sec, ms), []) =>
    if m ≤ 59 ∧ sec ≤ 59
    then some (((h * 3600000 + m * 60000 + sec * 1000 + ms : ℕ) : ℚ) / 1000)
    else none
  | _ => none

/-- Embedding of `re.match(r'\[([^\]]+)\]\s*(.*)', text)` from
`_parse_srt_content`: a leading bracket tag with a non-empty,
bracket-free name, then greedy whitespace (which may span newlines), then
the first group-capturable run (`.` does not match newlines, so group 2
stops at the first newline). -/
def speakerMatch (t : Str) : Option (Str × Str) :=
  match t with
  | [] => none
  | c :: rest =>
    if c = '[' then
      match rest.dropWhile (fun x => decide (x ≠ ']')) with
      | ']' :: after =>
        if rest.takeWhile (fun x => decide (x ≠ ']')) = [] then none
        else some (rest.takeWhile (fun x => decide (x ≠ ']')),
          (after.dropWhile isPySpace).takeWhile (fun x => decide (x ≠ '\n')))
      | _ => none
    else none

/-- One parsed cue dict appended by `_parse_srt_content`: keys `index`,
`start_time`, `end_time`, `text`, `speaker`, `duration`. -/
structure ParsedSentence where
  index : ℤ
  start_time : ℚ
  end_time : ℚ
  text : Str
  speaker : Str
  duration : ℚ
deriving DecidableEq, Repr

/-- The per-block body of `_parse_srt_content`: fewer than three lines
(after the block strip) skips the block; a failing `int(lines[0])`
(ValueError) skips the block; a failing timestamp-line match skips the
block; a failing timestamp conversion skips the block; otherwise the
remaining lines are newline-joined into the text, an optional leading
bracket tag is split off as the speaker, and the cue dict is built with
`duration = end_time - start_time`. -/
def parseBlock (blockLines : List Str) : Option ParsedSentence :=
  let lines := stripBlockLines blockLines
  if lines.length < 3 then none
  else
    match pyInt (lines.headD []) with
    | none => none
    | some idx =>
      match matchTimeLine ((lines.drop 1).headD []) with
      | none => none
      | some (g1, g2) =>
        match srt_time_to_seconds g1, srt_time_to_seconds g2 with
        | some stv, some env =>
          match speakerMatch (intercalateCh '\n' (lines.drop 2)) with
          | some (sp, txt) => some ⟨idx, stv, env, txt, sp, env - stv⟩
          | none =>
            some ⟨idx, stv, env, intercalateCh '\n' (lines.drop 2), strOf "", env - stv⟩
        | _, _ => none

/-- Embedding of `SubtitleProcessor._parse_srt_content`: strip the
content, split into blank-line-separated blocks, parse each block,
silently skipping the malformed ones. -/
def parse_srt_content (content : Str) : List ParsedSentence :=
  (splitBlocks (splitOnNl (pyStrip content))).filterMap parseBlock

/-- Number of blocks of the document that `_parse_srt_content` skips. -/
def numSkippedBlocks (content : Str) : ℕ :=
  (splitBlocks (splitOnNl (pyStrip content))).length - (parse_srt_content content).length

/-- The `data` dict returned by `SubtitleProcessor.parse_srt_file` on
success: the parsed sentences and their count — and nothing else. -/
structure SrtData where
  sentences : List ParsedSentence
  total_count : ℕ
deriving DecidableEq, Repr

/-- Embedding of the successful result payload of
`SubtitleProcessor.parse_srt_file` (the file I/O around it is outside the
embedding). -/
def parse_srt_file_data (content : Str) : SrtData :=
  { sentences := parse_srt_content content, total_count := (parse_srt_content content).length }

/-- The utterance fields the round-trip contract compares on a parsed
cue. -/
def projParsed (p : ParsedSentence) : ℚ × ℚ × Str × Str :=
  (p.start_time, p.end_time, p.text, p.speaker)

/-- The utterance fields the round-trip contract compares on an input
sentence. -/
def projSentence (s : Sentence) : ℚ × ℚ × Str × Str :=
  (s.start_time, s.end_time, s.text, s.speaker)

theorem natStrGo_congr : ∀ (m f1 f2 : ℕ), m < f1 → m < f2 → natStrGo f1 m = natStrGo f2 m := by
  intro m
  induction m using Nat.strong_induction_on with
  | _ m ih =>
    intro f1 f2 h1 h2
    cases f1 with
    | zero => omega
    | succ a =>
      cases f2 with
      | zero => omega
      | succ b =>
        simp only [natStrGo]
        by_cases h : m < 10
        · simp [h]
        · rw [if_neg h, if_neg h]
          have hd : m / 10 < m := Nat.div_lt_self (by omega) (by omega)
          rw [ih (m / 10) hd a b (by omega) (by omega)]

theorem natStr_eq (n : ℕ) :
    natStr n = if n < 10 then [Nat.digitChar n] else natStr (n / 10) ++ [Nat.digitChar (n % 10)] := by
  by_cases h : n < 10
  · simp [natStr, natStrGo, h]
  · rw [if_neg h]
    show natStrGo (n + 1) n = _
    rw [show natStrGo (n + 1) n
        = if n < 10 then [Nat.digitChar n] else natStrGo n (n / 10) ++ [Nat.digitChar (n % 10)]
      from rfl]
    rw [if_neg h]
    have hd : n / 10 < n := Nat.div_lt_self (by omega) (by omega)
    rw [natStrGo_congr (n / 10) n (n / 10 + 1) hd (by omega)]
    rfl

theorem digitChar_props : ∀ m < 10, (Nat.digitChar m).isDigit = true ∧
    isPySpace (Nat.digitChar m) = false ∧ Nat.digitChar m ≠ '\n' ∧
    (Nat.digitChar m).toNat = m + 48 := by decide

theorem natStr_all_digit : ∀ n : ℕ, ∀ c ∈ natStr n, c.isDigit = true := by
  intro n
  induction n using Nat.strong_induction_on with
  | _ n ih =>
    intro c hc
    rw [natStr_eq] at hc
    by_cases h : n < 10
    · rw [if_pos h] at hc
      simp only [List.mem_singleton] at hc
      exact hc ▸ (digitChar_props n h).1
    · rw [if_neg h] at hc
      rcases List.mem_append.mp hc with hc | hc
      · exact ih (n / 10) (Nat.div_lt_self (by omega) (by omega)) c hc
      · simp only [List.mem_singleton] at hc
        exact hc ▸ (digitChar_props (n % 10) (Nat.mod_lt n (by omega))).1

theorem natStr_ne_nil (n : ℕ) : natStr n ≠ [] := by
  rw [natStr_eq]
  by_cases h : n < 10 <;> simp [h]

theorem isPySpace_iff (c : Char) :
    isPySpace c = true ↔ c = ' ' ∨ c = '\t' ∨ c = '\n' ∨ c = '\r' ∨ c = '\x0b' ∨ c = '\x0c' := by
  simp only [isPySpace, Bool.or_eq_true, decide_eq_true_eq]
  tauto

theorem digit_not_space (c : Char) (h : c.isDigit = true) : isPySpace c = false := by
  by_contra hsp
  have hsp' : isPySpace c = true := by
    cases hx : isPySpace c
    · exact absurd hx hsp
    · rfl
  rcases (isPySpace_iff c).mp hsp' with rfl | rfl | rfl | rfl | rfl | rfl <;> simp_all

theorem digit_ne_nl (c : Char) (h : c.isDigit = true) : c ≠ '\n' := by
  intro h2
  rw [h2] at h
  exact absurd h (by decide)

theorem natStr_all_not_space (n : ℕ) : ∀ c ∈ natStr n, isPySpace c = false :=
  fun c hc => digit_not_space c (natStr_all_digit n c hc)

theorem natStr_no_nl (n : ℕ) : '\n' ∉ natStr n := by
  intro h
  exact absurd (natStr_all_digit n '\n' h) (by decide)

theorem dropWhile_eq_self_of_head (p : Char → Bool) :
    ∀ s : Str, (∀ c ∈ s.head?, p c = false) → s.dropWhile p = s := by
  intro s h
  cases s with
  | nil => rfl
  | cons c rest =>
    have : p c = false := h c rfl
    simp [List.dropWhile_cons, this]

theorem trimLead_eq_self (s : Str) (h : ∀ c ∈ s, isPySpace c = false) : trimLead s = s := by
  refine dropWhile_eq_self_of_head isPySpace s ?_
  intro c hc
  cases s with
  | nil => simp at hc
  | cons x rest =>
    simp only [List.head?_cons, Option.mem_some_iff] at hc
    exact hc ▸ h x (by simp)

theorem trimTrail_eq_self (s : Str) (h : ∀ c ∈ s, isPySpace c = false) : trimTrail s = s := by
  rw [trimTrail, dropWhile_eq_self_of_head isPySpace s.reverse ?_, List.reverse_reverse]
  intro c hc
  cases hr : s.reverse with
  | nil => rw [hr] at hc; simp at hc
  | cons x rest =>
    rw [hr] at hc
    simp only [List.head?_cons, Option.mem_some_iff] at hc
    refine hc ▸ h x ?_
    have : x ∈ s.reverse := by rw [hr]; simp
    simpa using this

theorem pyStrip_eq_self (s : Str) (h : ∀ c ∈ s, isPySpace c = false) : pyStrip s = s := by
  rw [pyStrip, trimLead_eq_self s h, trimTrail_eq_self s h]

/-- A well-formed `HH:MM:SS,mmm` timestamp string assembled from its four
numeric fields. -/
def mkTimestamp (h m s ms : ℕ) : Str :=
  padTwo h ++ ':' :: padTwo m ++ ':' :: padTwo s ++ ',' :: padThree ms

theorem padTwo_eq (n : ℕ) (h : n ≤ 99) :
    padTwo n = [Nat.digitChar (n / 10), Nat.digitChar (n % 10)] := by
  by_cases h10 : n < 10
  · rw [padTwo, if_pos h10, natStr_eq, if_pos h10]
    have h1 : n / 10 = 0 := by omega
    have h2 : n % 10 = n := by omega
    rw [h1, h2]
    rfl
  · rw [padTwo, if_neg h10, natStr_eq, if_neg h10, natStr_eq,
      if_pos (show n / 10 < 10 by omega)]
    rfl

theorem padThree_eq (n : ℕ) (h : n ≤ 999) :
    padThree n = [Nat.digitChar (n / 100), Nat.digitChar (n / 10 % 10), Nat.digitChar (n % 10)] := by
  by_cases h10 : n < 10
  · rw [padThree, if_pos h10, natStr_eq, if_pos h10]
    have h1 : n / 100 = 0 := by omega
    have h2 : n / 10 % 10 = 0 := by omega
    have h3 : n % 10 = n := by omega
    rw [h1, h2, h3]
    rfl
  · by_cases h100 : n < 100
    · rw [padThree, if_neg h10, if_pos h100, natStr_eq, if_neg h10, natStr_eq,
        if_pos (show n / 10 < 10 by omega)]
      have h1 : n / 100 = 0 := by omega
      have h2 : n / 10 % 10 = n / 10 := by omega
      rw [h1, h2]
      rfl
    · rw [padThree, if_neg h10, if_neg h100, natStr_eq, if_neg h10, natStr_eq,
        if_neg (show ¬ n / 10 < 10 by omega), natStr_eq,
        if_pos (show n / 10 / 10 < 10 by omega)]
      have h1 : n / 10 / 10 = n / 100 := by omega
      rw [h1]
      rfl

theorem parseTwoDigits_digits (x y : ℕ) (hx : x < 10) (hy : y < 10) (rest : Str) :
    parseTwoDigits (Nat.digitChar x :: Nat.digitChar y :: rest) = some (x * 10 + y, rest) := by
  have px := digitChar_props x hx
  have py := digitChar_props y hy
  rw [parseTwoDigits, if_pos ⟨px.1, py.1⟩, px.2.2.2, py.2.2.2]
  congr 2

theorem parseThreeDigits_digits (x y z : ℕ) (hx : x < 10) (hy : y < 10) (hz : z < 10)
    (rest : Str) :
    parseThreeDigits (Nat.digitChar x :: Nat.digitChar y :: Nat.digitChar z :: rest)
      = some (x * 100 + y * 10 + z, rest) := by
  have px := digitChar_props x hx
  have py := digitChar_props y hy
  have pz := digitChar_props z hz
  rw [parseThreeDigits, if_pos ⟨px.1, py.1, pz.1⟩, px.2.2.2, py.2.2.2, pz.2.2.2]
  congr 2

theorem expectCh_self (c : Char) (rest : Str) : expectCh c (c :: rest) = some rest := by
  simp [expectCh]

theorem matchClock_mk (h m s ms : ℕ) (hh : h ≤ 99) (hm : m ≤ 59) (hs : s ≤ 59)
    (hms : ms ≤ 999) (rest : Str) :
    matchClock (mkTimestamp h m s ms ++ rest) = some ((h, m, s, ms), rest) := by
  rw [mkTimestamp, padTwo_eq h hh, padTwo_eq m (by omega), padTwo_eq s (by omega),
    padThree_eq ms hms]
  simp only [List.cons_append, List.append_assoc, List.nil_append]
  simp only [matchClock,
    parseTwoDigits_digits (h / 10) (h % 10) (by omega) (by omega),
    parseTwoDigits_digits (m / 10) (m % 10) (by omega) (by omega),
    parseTwoDigits_digits (s / 10) (s % 10) (by omega) (by omega),
    parseThreeDigits_digits (ms / 100) (ms / 10 % 10) (ms % 10)
      (by omega) (by omega) (by omega),
    expectCh_self, Option.some.injEq, Prod.mk.injEq]
  exact ⟨⟨by omega, by omega, by omega, by omega⟩, trivial⟩

theorem srt_time_to_seconds_mk (h m s ms : ℕ) (hh : h ≤ 99) (hm : m ≤ 59) (hs : s ≤ 59)
    (hms : ms ≤ 999) :
    srt_time_to_seconds (mkTimestamp h m s ms)
      = some (((h * 3600000 + m * 60000 + s * 1000 + ms : ℕ) : ℚ) / 1000) := by
  have hmc : matchClock (mkTimestamp h m s ms) = some ((h, m, s, ms), []) := by
    have := matchClock_mk h m s ms hh hm hs hms []
    rwa [List.append_nil] at this
  simp only [srt_time_to_seconds, hmc]
  rw [if_pos ⟨hm, hs⟩]

theorem floor_msRat (T : ℕ) : (Int.floor ((1000 : ℚ) * ((T : ℚ) / 1000))).toNat = T := by
  have h1 : (1000 : ℚ) * ((T : ℚ) / 1000) = (T : ℚ) := by
    field_simp
  rw [h1, Int.floor_natCast, Int.toNat_natCast]

theorem seconds_to_srt_time_msRat (T : ℕ) :
    seconds_to_srt_time ((T : ℚ) / 1000)
      = mkTimestamp (T / 3600000) (T % 3600000 / 60000) (T % 60000 / 1000) (T % 1000) := by
  rw [seconds_to_srt_time, floor_msRat]
  rfl

/-- C8: timestamp round trip.  Every well-formed `HH:MM:SS,mmm` string
(two-digit hours, minutes and seconds at most 59, three-digit
milliseconds) parses to an exact rational second offset, and formatting
that offset reproduces the string character for character. -/
theorem C8_theorem (h m s ms : ℕ) (hh : h ≤ 99) (hm : m ≤ 59) (hs : s ≤ 59) (hms : ms ≤ 999) :
    srt_time_to_seconds (mkTimestamp h m s ms)
      = some (((h * 3600000 + m * 60000 + s * 1000 + ms : ℕ) : ℚ) / 1000) ∧
    seconds_to_srt_time (((h * 3600000 + m * 60000 + s * 1000 + ms : ℕ) : ℚ) / 1000)
      = mkTimestamp h m s ms := by
  refine ⟨srt_time_to_seconds_mk h m s ms hh hm hs hms, ?_⟩
  rw [seconds_to_srt_time_msRat]
  have e1 : (h * 3600000 + m * 60000 + s * 1000 + ms) / 3600000 = h := by omega
  have e2 : (h * 3600000 + m * 60000 + s * 1000 + ms) % 3600000 / 60000 = m := by omega
  have e3 : (h * 3600000 + m * 60000 + s * 1000 + ms) % 60000 / 1000 = s := by omega
  have e4 : (h * 3600000 + m * 60000 + s * 1000 + ms) % 1000 = ms := by omega
  rw [e1, e2, e3, e4]

/-- C8 witness: the round trip evaluated at the concrete timestamp
`01:02:03,450`. -/
theorem C8_witness :
    srt_time_to_seconds (mkTimestamp 1 2 3 450)
      = some (((1 * 3600000 + 2 * 60000 + 3 * 1000 + 450 : ℕ) : ℚ) / 1000) ∧
    seconds_to_srt_time (((1 * 3600000 + 2 * 60000 + 3 * 1000 + 450 : ℕ) : ℚ) / 1000)
      = mkTimestamp 1 2 3 450 :=
  C8_theorem 1 2 3 450 (by norm_num) (by norm_num) (by norm_num) (by norm_num)

/-- Every emitted cue block of `generate_srt` occupies exactly four
consecutive lines (index, timestamps, text, blank); this selects the
index line of each emitted block. -/
def everyFourth : List Str → List Str
  | a :: _ :: _ :: _ :: rest => a :: everyFourth rest
  | _ => []

/-- The 1-based input positions of the sentences that survive the
empty-text skip, starting the count at `i`. -/
def keptPositions : ℕ → List Sentence → List ℕ
  | _, [] => []
  | i, s :: rest =>
    if pyStrip s.text = [] then keptPositions (i + 1) rest
    else i :: keptPositions (i + 1) rest

theorem everyFourth_genAux (inc : Bool) :
    ∀ (T : List Sentence) (i : ℕ),
      everyFourth (genAux inc i T) = (keptPositions i T).map natStr := by
  intro T
  induction T with
  | nil => intro i; rfl
  | cons s rest ih =>
    intro i
    by_cases h : pyStrip s.text = []
    · rw [show genAux inc i (s :: rest) = genAux inc (i + 1) rest from by
        simp only [genAux]; rw [if_pos h]]
      rw [show keptPositions i (s :: rest) = keptPositions (i + 1) rest from by
        simp only [keptPositions]; rw [if_pos h]]
      exact ih (i + 1)
    · rw [show genAux inc i (s :: rest)
          = natStr i
            :: (seconds_to_srt_time s.start_time ++ strOf " --> "
                  ++ seconds_to_srt_time s.end_time)
            :: (if s.speaker ≠ [] ∧ inc = true
                then '[' :: s.speaker ++ ']' :: ' ' :: pyStrip s.text
                else pyStrip s.text)
            :: [] :: genAux inc (i + 1) rest from by
        simp only [genAux]; rw [if_neg h]]
      rw [show keptPositions i (s :: rest) = i :: keptPositions (i + 1) rest from by
        simp only [keptPositions]; rw [if_neg h]]
      simp only [everyFourth, List.map_cons]
      rw [ih (i + 1)]

theorem keptPositions_all_kept :
    ∀ (T : List Sentence) (i : ℕ), (∀ s ∈ T, pyStrip s.text ≠ []) →
      keptPositions i T = List.range' i T.length := by
  intro T
  induction T with
  | nil => intro i _; rfl
  | cons s rest ih =>
    intro i h
    rw [show keptPositions i (s :: rest) = i :: keptPositions (i + 1) rest from by
      simp only [keptPositions]; rw [if_neg (h s (by simp))]]
    rw [ih (i + 1) fun u hu => h u (by simp [hu])]
    rfl

/-- Input for the C4 counterexample: a whitespace-only first sentence
followed by a normal one. -/
def exC4 : List Sentence :=
  [Sentence.mk 0 1 (strOf "") (strOf ""), Sentence.mk 0 1 (strOf "hi") (strOf "")]

/-- C4 counterexample: with a skipped (empty-text) first sentence, the
single emitted cue block carries index line `2`, not `1`: skipped
utterances DO consume an index number, so the emitted indices are not the
contiguous sequence `1..N`. -/
theorem C4_counterexample :
    everyFourth (genAux false 1 exC4) = [natStr 2] ∧
    everyFourth (genAux false 1 exC4) ≠ [natStr 1] := by
  with_unfolding_all decide

/-- C4 amended: utterances with empty or whitespace-only text are indeed
skipped (they emit no lines), but the `enumerate`-based counter advances
on every input sentence, so each emitted block's index line is the
sentence's 1-based position in the INPUT list; the indices are contiguous
`1..N` only when no sentence is skipped. -/
theorem C4_theorem :
    (∀ (inc : Bool) (i : ℕ) (s : Sentence) (rest : List Sentence),
      pyStrip s.text = [] → genAux inc i (s :: rest) = genAux inc (i + 1) rest) ∧
    (∀ (inc : Bool) (T : List Sentence) (i : ℕ),
      everyFourth (genAux inc i T) = (keptPositions i T).map natStr) ∧
    (∀ (inc : Bool) (T : List Sentence), (∀ s ∈ T, pyStrip s.text ≠ []) →
      everyFourth (genAux inc 1 T) = (List.range' 1 T.length).map natStr) := by
  refine ⟨?_, fun inc T i => everyFourth_genAux inc T i, ?_⟩
  · intro inc i s rest h
    simp only [genAux]
    rw [if_pos h]
  · intro inc T h
    rw [everyFourth_genAux, keptPositions_all_kept T 1 h]

/-- C4 witness: the amended theorem applied at concrete inputs. -/
theorem C4_witness :
    genAux false 1 exC4 = genAux false 2 [Sentence.mk 0 1 (strOf "hi") (strOf "")] ∧
    everyFourth (genAux false 1 [Sentence.mk 0 1 (strOf "hi") (strOf "")])
      = (List.range' 1 1).map natStr :=
  ⟨C4_theorem.1 false 1 (Sentence.mk 0 1 (strOf "") (strOf ""))
     [Sentence.mk 0 1 (strOf "hi") (strOf "")] (by decide),
   C4_theorem.2.2 false [Sentence.mk 0 1 (strOf "hi") (strOf "")]
     (by with_unfolding_all decide)⟩

theorem parseBlock_duration (b : List Str) (p : ParsedSentence) (h : parseBlock b = some p) :
    p.duration = p.end_time - p.start_time := by
  simp only [parseBlock] at h
  split at h
  · exact absurd h (by simp)
  · split at h
    · exact absurd h (by simp)
    · split at h
      · exact absurd h (by simp)
      · split at h
        · split at h
          · rw [Option.some.injEq] at h
            rw [← h]
          · rw [Option.some.injEq] at h
            rw [← h]
        · exact absurd h (by simp)

theorem parseBlock_bad_index (b : List Str)
    (h : pyInt ((stripBlockLines b).headD []) = none) : parseBlock b = none := by
  simp only [parseBlock]
  split
  · rfl
  · rw [h]

/-- C10: content parsing is total (the embedding of `_parse_srt_content`
is a plain function returning a list for every input string); every cue
it returns satisfies `duration = end_time - start_time`, and a block
whose first line fails integer parsing (Python `ValueError`) is skipped
by itself — `parseBlock` returns nothing for it while the surrounding
`filterMap` keeps processing the remaining blocks. -/
theorem C10_theorem :
    (∀ (content : Str), ∀ p ∈ parse_srt_content content,
      p.duration = p.end_time - p.start_time) ∧
    (∀ b : List Str, pyInt ((stripBlockLines b).headD []) = none → parseBlock b = none) ∧
    (∀ (bs1 bs2 : List (List Str)) (b : List Str), parseBlock b = none →
      (bs1 ++ b :: bs2).filterMap parseBlock = (bs1 ++ bs2).filterMap parseBlock) := by
  refine ⟨?_, parseBlock_bad_index, ?_⟩
  · intro content p hp
    obtain ⟨b, _, hb⟩ := List.mem_filterMap.mp hp
    exact parseBlock_duration b p hb
  · intro bs1 bs2 b h
    simp [List.filterMap_append, List.filterMap_cons, h]

/-- A well-formed single-cue document used by witnesses. -/
def exDocGood : Str := strOf "1\n00:00:00,000 --> 00:00:01,000\nhello"

/-- The cue `exDocGood` parses to. -/
def exCueGood : ParsedSentence := ParsedSentence.mk 1 0 1 (strOf "hello") (strOf "") 1

/-- C10 witness: the theorem applied at a concrete document, a concrete
bad-index block and a concrete block list. -/
theorem C10_witness :
    exCueGood.duration = exCueGood.end_time - exCueGood.start_time ∧
    parseBlock [strOf "x", strOf "y", strOf "z"] = none ∧
    ([[strOf "x"]] ++ [strOf "x", strOf "y", strOf "z"] :: []).filterMap parseBlock
      = ([[strOf "x"]] ++ []).filterMap parseBlock :=
  ⟨C10_theorem.1 exDocGood exCueGood (by with_unfolding_all decide),
   C10_theorem.2.1 [strOf "x", strOf "y", strOf "z"] (by with_unfolding_all decide),
   C10_theorem.2.2 [[strOf "x"]] [] [strOf "x", strOf "y", strOf "z"]
     (by with_unfolding_all decide)⟩

/-- A document with one well-formed cue and one cue whose timestamp
line is missing (the spec's resilient-parse test case). -/
def exDocBad : Str :=
  strOf "1\n00:00:00,000 --> 00:00:01,000\nhello\n\n2\nmissing timestamp\nextra"

/-- C7 counterexample: the well-formed document and the document with an
extra malformed block produce IDENTICAL parse results (`parse_srt_file`
reports only the cue list and its count), although they have different
numbers of skipped blocks (0 versus 1).  No component of the result can
therefore report the skipped-block count, so the claim that the parse
result reports a count of skipped blocks is false. -/
theorem C7_counterexample :
    parse_srt_file_data exDocGood = parse_srt_file_data exDocBad ∧
    numSkippedBlocks exDocGood = 0 ∧
    numSkippedBlocks exDocBad = 1 := by
  with_unfolding_all decide

/-- C7 amended: parsing is best-effort — a block that fails index
parsing, fails the timestamp-pattern match or has fewer than three lines
is skipped without aborting the parse of the remaining blocks, and the
spec's test document (one well-formed cue plus one cue missing its
timestamp line) parses to exactly one utterance with one block skipped —
but the parse RESULT reports only the well-formed cues and their count;
the skipped-block count is not part of the result. -/
theorem C7_theorem :
    (∀ (bs1 bs2 : List (List Str)) (b : List Str),
      (stripBlockLines b).length < 3 ∨
        pyInt ((stripBlockLines b).headD []) = none ∨
        matchTimeLine (((stripBlockLines b).drop 1).headD []) = none →
      (bs1 ++ b :: bs2).filterMap parseBlock = (bs1 ++ bs2).filterMap parseBlock) ∧
    parse_srt_content exDocBad = [exCueGood] ∧
    numSkippedBlocks exDocBad = 1 ∧
    parse_srt_file_data exDocBad
      = SrtData.mk (parse_srt_content exDocBad) (parse_srt_content exDocBad).length := by
  refine ⟨?_, by with_unfolding_all decide, by with_unfolding_all decide, rfl⟩
  intro bs1 bs2 b h
  have hnone : parseBlock b = none := by
    rcases h with h | h | h
    · simp only [parseBlock]
      rw [if_pos h]
    · exact parseBlock_bad_index b h
    · simp only [parseBlock]
      split
      · rfl
      · cases hidx : pyInt ((stripBlockLines b).headD []) with
        | none => rfl
        | some idx => rw [h]
  simp [List.filterMap_append, List.filterMap_cons, hnone]

/-- C7 witness: the amended skip property applied at a concrete malformed
block (the timestamp-less block of the test document). -/
theorem C7_witness :
    List.filterMap parseBlock
        ([[strOf "ok?"]] ++ [strOf "2", strOf "missing timestamp", strOf "extra"] :: [])
      = List.filterMap parseBlock ([[strOf "ok?"]] ++ []) :=
  C7_theorem.1 [[strOf "ok?"]] [] [strOf "2", strOf "missing timestamp", strOf "extra"]
    (by with_unfolding_all decide)

/-- Input for the C1 counterexample: one utterance with multi-line text
and a speaker. -/
def exC1multi : List Sentence := [Sentence.mk 0 1 (strOf "a\nb") (strOf "spk1")]

/-- C1 counterexample: serializing an utterance with multi-line text and
a speaker tag and parsing the result loses every text line after the
first — the speaker-tag regex group `(.*)` stops at the first newline —
so `parse(serialize(T))` is not `T` for multi-line text, although the
claim includes multi-line text explicitly. -/
theorem C1_counterexample :
    (parse_srt_content (generate_srt true exC1multi)).map projParsed
      = [((0 : ℚ), (1 : ℚ), strOf "a", strOf "spk1")] ∧
    (parse_srt_content (generate_srt true exC1multi)).map projParsed
      ≠ exC1multi.map projSentence := by
  with_unfolding_all decide

theorem dropWhile_append_of_ne_nil (p : Char → Bool) :
    ∀ (as bs : Str), as.dropWhile p ≠ [] → (as ++ bs).dropWhile p = as.dropWhile p ++ bs := by
  intro as
  induction as with
  | nil => intro bs h; exact absurd rfl h
  | cons c rest ih =>
    intro bs h
    by_cases hc : p c
    · simp only [List.cons_append, List.dropWhile_cons_of_pos hc] at h ⊢
      exact ih bs h
    · rw [List.cons_append, List.dropWhile_cons_of_neg hc, List.dropWhile_cons_of_neg hc]
      rfl

theorem trimTrail_append (a b : Str) (hb : trimTrail b ≠ []) :
    trimTrail (a ++ b) = a ++ trimTrail b := by
  have h1 : b.reverse.dropWhile isPySpace ≠ [] := by
    intro hx
    exact hb (by simp [trimTrail, hx])
  rw [trimTrail, List.reverse_append, dropWhile_append_of_ne_nil isPySpace _ _ h1,
    List.reverse_append, List.reverse_reverse]
  rfl

theorem trimTrail_snoc_ws (x : Str) (c : Char) (hc : isPySpace c = true) :
    trimTrail (x ++ [c]) = trimTrail x := by
  rw [trimTrail, List.reverse_append, List.reverse_singleton, List.singleton_append,
    List.dropWhile_cons_of_pos hc]
  rfl

theorem trimTrail_ne_nil_of_mem (x : Str) (c : Char) (hmem : c ∈ x)
    (hc : isPySpace c = false) : trimTrail x ≠ [] := by
  intro h
  have h1 : x.reverse.dropWhile isPySpace = [] := by
    have := congrArg List.reverse h
    simpa [trimTrail] using this
  have h2 := List.dropWhile_eq_nil_iff.mp h1
  have : isPySpace c = true := h2 c (by simpa using hmem)
  rw [hc] at this
  exact Bool.false_ne_true this

theorem trimLead_cons_of_neg (c : Char) (s : Str) (hc : isPySpace c = false) :
    trimLead (c :: s) = c :: s := by
  rw [trimLead, List.dropWhile_cons_of_neg (by rw [hc]; exact Bool.false_ne_true)]

theorem takeWhile_eq_self_of_all (p : Char → Bool) :
    ∀ s : Str, (∀ c ∈ s, p c = true) → s.takeWhile p = s := by
  intro s
  induction s with
  | nil => intro _; rfl
  | cons c rest ih =>
    intro h
    rw [List.takeWhile_cons_of_pos (h c (by simp))]
    rw [ih fun x hx => h x (by simp [hx])]

theorem takeWhile_append_stop (p : Char → Bool) :
    ∀ (a : Str) (b : Char) (r : Str), (∀ c ∈ a, p c = true) → p b = false →
      (a ++ b :: r).takeWhile p = a := by
  intro a
  induction a with
  | nil =>
    intro b r _ hb
    rw [List.nil_append]
    exact List.takeWhile_cons_of_neg (by rw [hb]; exact Bool.false_ne_true)
  | cons c rest ih =>
    intro b r h hb
    rw [List.cons_append, List.takeWhile_cons_of_pos (h c (by simp))]
    rw [ih b r (fun x hx => h x (by simp [hx])) hb]

theorem dropWhile_append_stop (p : Char → Bool) :
    ∀ (a : Str) (b : Char) (r : Str), (∀ c ∈ a, p c = true) → p b = false →
      (a ++ b :: r).dropWhile p = b :: r := by
  intro a
  induction a with
  | nil =>
    intro b r _ hb
    rw [List.nil_append]
    exact List.dropWhile_cons_of_neg (by rw [hb]; exact Bool.false_ne_true)
  | cons c rest ih =>
    intro b r h hb
    rw [List.cons_append, List.dropWhile_cons_of_pos (h c (by simp))]
    exact ih b r (fun x hx => h x (by simp [hx])) hb

theorem splitOnNl_ne_nil : ∀ s : Str, splitOnNl s ≠ [] := by
  intro s
  induction s with
  | nil => simp [splitOnNl]
  | cons c rest ih =>
    by_cases hc : c = '\n'
    · simp [splitOnNl, hc]
    · simp only [splitOnNl, if_neg hc]
      cases hx : splitOnNl rest with
      | nil => simp
      | cons h t => simp

theorem splitOnNl_no_nl : ∀ l : Str, '\n' ∉ l → splitOnNl l = [l] := by
  intro l
  induction l with
  | nil => intro _; rfl
  | cons c rest ih =>
    intro h
    have hc : ¬ c = '\n' := fun hx => h (by simp [hx])
    have hrest : '\n' ∉ rest := fun hx => h (by simp [hx])
    simp only [splitOnNl, if_neg hc, ih hrest]

theorem splitOnNl_append (l rest : Str) (h : '\n' ∉ l) :
    splitOnNl (l ++ '\n' :: rest) = l :: splitOnNl rest := by
  induction l with
  | nil => simp [splitOnNl]
  | cons c tl ih =>
    have hc : ¬ c = '\n' := fun hx => h (by simp [hx])
    have htl : '\n' ∉ tl := fun hx => h (by simp [hx])
    rw [List.cons_append]
    simp only [splitOnNl, if_neg hc, ih htl]

theorem intercalateCh_cons (c : Char) (l : Str) (rest : List Str) (h : rest ≠ []) :
    intercalateCh c (l :: rest) = l ++ c :: intercalateCh c rest := by
  cases rest with
  | nil => exact absurd rfl h
  | cons x xs => rfl

theorem expectStr_self_append : ∀ (pat s : Str), expectStr pat (pat ++ s) = some s := by
  intro pat
  induction pat with
  | nil => intro s; rfl
  | cons c cs ih =>
    intro s
    rw [List.cons_append, expectStr, expectCh_self]
    exact ih s

theorem length_dropWhile_le_self (p : Char → Bool) :
    ∀ s : Str, (s.dropWhile p).length ≤ s.length := by
  intro s
  induction s with
  | nil => simp
  | cons c rest ih =>
    by_cases hc : p c
    · rw [List.dropWhile_cons_of_pos hc]
      simp only [List.length_cons]
      omega
    · rw [List.dropWhile_cons_of_neg hc]

theorem dropWhile_eq_self_of_length (p : Char → Bool) :
    ∀ s : Str, (s.dropWhile p).length = s.length → s.dropWhile p = s := by
  intro s
  induction s with
  | nil => intro _; rfl
  | cons c rest ih =>
    intro h
    by_cases hc : p c
    · rw [List.dropWhile_cons_of_pos hc] at h
      have := length_dropWhile_le_self p rest
      simp only [List.length_cons] at h
      omega
    · rw [List.dropWhile_cons_of_neg hc]

theorem trimTrail_length_le (s : Str) : (trimTrail s).length ≤ s.length := by
  rw [trimTrail, List.length_reverse]
  have := length_dropWhile_le_self isPySpace s.reverse
  simpa using this

theorem pyStrip_parts (t : Str) (h : pyStrip t = t) : trimLead t = t ∧ trimTrail t = t := by
  have l1 : (trimLead t).length ≤ t.length := length_dropWhile_le_self isPySpace t
  have l2 : (pyStrip t).length ≤ (trimLead t).length := trimTrail_length_le (trimLead t)
  rw [h] at l2
  have hlen : (trimLead t).length = t.length := le_antisymm l1 l2
  have hlead : trimLead t = t := dropWhile_eq_self_of_length isPySpace t hlen
  refine ⟨hlead, ?_⟩
  rw [pyStrip, hlead] at h
  exact h

theorem head_not_space_of_trimLead (c : Char) (s : Str) (h : trimLead (c :: s) = c :: s) :
    isPySpace c = false := by
  by_contra hc
  have hc' : isPySpace c = true := by
    cases hx : isPySpace c
    · exact absurd hx hc
    · rfl
  rw [trimLead, List.dropWhile_cons_of_pos hc'] at h
  have hlen := congrArg List.length h
  have hle := length_dropWhile_le_self isPySpace s
  simp only [List.length_cons] at hlen
  omega

theorem isWsLine_false_of_mem (l : Str) (c : Char) (hc : c ∈ l) (h : isPySpace c = false) :
    isWsLine l = false := by
  cases hx : isWsLine l
  · rfl
  · have := List.all_eq_true.mp hx c hc
    rw [h] at this
    exact absurd this Bool.false_ne_true

theorem ne_nil_of_not_ws (l : Str) (h : isWsLine l = false) : l ≠ [] := by
  intro hnil
  rw [hnil] at h
  simp [isWsLine] at h

theorem not_ws_of_stripped (t : Str) (hstrip : pyStrip t = t) (hne : t ≠ []) :
    isWsLine t = false := by
  cases hx : isWsLine t
  · rfl
  · have hall : ∀ c ∈ t, isPySpace c = true := List.all_eq_true.mp hx
    have h1 : trimLead t = [] := by
      rw [trimLead, List.dropWhile_eq_nil_iff]
      intro c hc
      exact hall c hc
    rw [pyStrip, h1] at hstrip
    exact absurd hstrip.symm hne

theorem natStr_not_ws (n : ℕ) : isWsLine (natStr n) = false := by
  cases hx : natStr n with
  | nil => exact absurd hx (natStr_ne_nil n)
  | cons c rest =>
    refine isWsLine_false_of_mem _ c (by simp) ?_
    exact natStr_all_not_space n c (by rw [hx]; simp)

theorem padTwo_all_digit (n : ℕ) : ∀ c ∈ padTwo n, c.isDigit = true := by
  intro c hc
  rw [padTwo] at hc
  by_cases h : n < 10
  · rw [if_pos h] at hc
    rcases List.mem_cons.mp hc with rfl | hc
    · decide
    · exact natStr_all_digit n c hc
  · rw [if_neg h] at hc
    exact natStr_all_digit n c hc

theorem padThree_all_digit (n : ℕ) : ∀ c ∈ padThree n, c.isDigit = true := by
  intro c hc
  rw [padThree] at hc
  by_cases h10 : n < 10
  · rw [if_pos h10] at hc
    rcases List.mem_cons.mp hc with rfl | hc
    · decide
    · rcases List.mem_cons.mp hc with rfl | hc
      · decide
      · exact natStr_all_digit n c hc
  · rw [if_neg h10] at hc
    by_cases h100 : n < 100
    · rw [if_pos h100] at hc
      rcases List.mem_cons.mp hc with rfl | hc
      · decide
      · exact natStr_all_digit n c hc
    · rw [if_neg h100] at hc
      exact natStr_all_digit n c hc

theorem mkTimestamp_chars (h m s ms : ℕ) :
    ∀ c ∈ mkTimestamp h m s ms, c.isDigit = true ∨ c = ':' ∨ c = ',' := by
  intro c hc
  rw [mkTimestamp] at hc
  rcases List.mem_append.mp hc with h1 | h1
  · rcases List.mem_append.mp h1 with h1 | h1
    · rcases List.mem_append.mp h1 with h1 | h1
      · exact Or.inl (padTwo_all_digit h c h1)
      · rcases List.mem_cons.mp h1 with h1 | h1
        · exact Or.inr (Or.inl h1)
        · exact Or.inl (padTwo_all_digit m c h1)
    · rcases List.mem_cons.mp h1 with h1 | h1
      · exact Or.inr (Or.inl h1)
      · exact Or.inl (padTwo_all_digit s c h1)
  · rcases List.mem_cons.mp h1 with h1 | h1
    · exact Or.inr (Or.inr h1)
    · exact Or.inl (padThree_all_digit ms c h1)

theorem mkTimestamp_no_nl (h m s ms : ℕ) : '\n' ∉ mkTimestamp h m s ms := by
  intro hmem
  rcases mkTimestamp_chars h m s ms '\n' hmem with hd | hd | hd
  · exact absurd hd (by decide)
  · exact absurd hd (by decide)
  · exact absurd hd (by decide)

theorem mkTimestamp_mem_colon (h m s ms : ℕ) : ':' ∈ mkTimestamp h m s ms := by
  rw [mkTimestamp]
  refine List.mem_append.mpr (Or.inl (List.mem_append.mpr (Or.inl
    (List.mem_append.mpr (Or.inr ?_)))))
  simp

theorem mkTimestamp_length (h m s ms : ℕ) (hh : h ≤ 99) (hm : m ≤ 59) (hs : s ≤ 59)
    (hms : ms ≤ 999) : (mkTimestamp h m s ms).length = 12 := by
  rw [mkTimestamp, padTwo_eq h hh, padTwo_eq m (by omega), padTwo_eq s (by omega),
    padThree_eq ms hms]
  rfl

theorem take_length_append : ∀ (a b : Str), (a ++ b).take a.length = a := by
  intro a
  induction a with
  | nil => intro b; rfl
  | cons c rest ih =>
    intro b
    simp only [List.cons_append, List.length_cons, List.take_succ_cons]
    rw [ih b]

theorem drop_length_append : ∀ (a b : Str), (a ++ b).drop a.length = b := by
  intro a
  induction a with
  | nil => intro b; rfl
  | cons c rest ih =>
    intro b
    simp only [List.cons_append, List.length_cons, List.drop_succ_cons]
    exact ih b

theorem matchTimeLine_fmt (h1 m1 s1 ms1 h2 m2 s2 ms2 : ℕ)
    (hh1 : h1 ≤ 99) (hm1 : m1 ≤ 59) (hs1 : s1 ≤ 59) (hms1 : ms1 ≤ 999)
    (hh2 : h2 ≤ 99) (hm2 : m2 ≤ 59) (hs2 : s2 ≤ 59) (hms2 : ms2 ≤ 999) :
    matchTimeLine (mkTimestamp h1 m1 s1 ms1 ++ strOf " --> " ++ mkTimestamp h2 m2 s2 ms2)
      = some (mkTimestamp h1 m1 s1 ms1, mkTimestamp h2 m2 s2 ms2) := by
  have hA : matchClock (mkTimestamp h1 m1 s1 ms1 ++ strOf " --> " ++ mkTimestamp h2 m2 s2 ms2)
      = some ((h1, m1, s1, ms1), strOf " --> " ++ mkTimestamp h2 m2 s2 ms2) := by
    rw [List.append_assoc]
    exact matchClock_mk h1 m1 s1 ms1 hh1 hm1 hs1 hms1 _
  have hB : matchClock (mkTimestamp h2 m2 s2 ms2) = some ((h2, m2, s2, ms2), []) := by
    have := matchClock_mk h2 m2 s2 ms2 hh2 hm2 hs2 hms2 []
    rwa [List.append_nil] at this
  simp only [matchTimeLine, hA, expectStr_self_append, hB]
  have hlenA : (mkTimestamp h1 m1 s1 ms1).length = 12 := mkTimestamp_length _ _ _ _ hh1 hm1 hs1 hms1
  have hlenB : (mkTimestamp h2 m2 s2 ms2).length = 12 := mkTimestamp_length _ _ _ _ hh2 hm2 hs2 hms2
  have htake : (mkTimestamp h1 m1 s1 ms1 ++ strOf " --> " ++ mkTimestamp h2 m2 s2 ms2).take 12
      = mkTimestamp h1 m1 s1 ms1 := by
    rw [List.append_assoc, ← hlenA, take_length_append]
  have hlen17 : (mkTimestamp h1 m1 s1 ms1 ++ strOf " --> ").length = 17 := by
    rw [List.length_append, hlenA]
    rfl
  have hdrop : (mkTimestamp h1 m1 s1 ms1 ++ strOf " --> " ++ mkTimestamp h2 m2 s2 ms2).drop 17
      = mkTimestamp h2 m2 s2 ms2 := by
    rw [← hlen17, drop_length_append]
  rw [htake, hdrop, ← hlenB, List.take_length]

theorem digit_ne (c : Char) (h : c.isDigit = true) (d : Char) (hd : d.isDigit = false) :
    c ≠ d := by
  intro he
  rw [he, hd] at h
  exact Bool.false_ne_true h

theorem pyInt_natStr (n : ℕ) : pyInt (natStr n) = some ((digitsVal (natStr n) : ℕ) : ℤ) := by
  have hstrip : pyStrip (natStr n) = natStr n := pyStrip_eq_self _ (natStr_all_not_space n)
  have hne : natStr n ≠ [] := natStr_ne_nil n
  have hall : (natStr n).all Char.isDigit = true :=
    List.all_eq_true.mpr fun c hc => natStr_all_digit n c hc
  cases hx : natStr n with
  | nil => exact absurd hx hne
  | cons c rest =>
    have hcdig : c.isDigit = true := natStr_all_digit n c (by rw [hx]; simp)
    have hminus : ¬ (c :: rest).head? = some '-' := by
      simp only [List.head?_cons, Option.some.injEq]
      exact digit_ne c hcdig '-' (by decide)
    have hplus : ¬ (c :: rest).head? = some '+' := by
      simp only [List.head?_cons, Option.some.injEq]
      exact digit_ne c hcdig '+' (by decide)
    rw [hx] at hstrip hall
    simp only [pyInt, hstrip, hx]
    rw [if_neg (by simp : ¬ (c :: rest : Str) = []), if_neg hminus, if_neg hplus, if_pos hall]

theorem speakerMatch_tag (sp txt : Str) (hsp : sp ≠ []) (hbr : ']' ∉ sp)
    (htxtLead : trimLead txt = txt) (htxtNl : '\n' ∉ txt) :
    speakerMatch ('[' :: sp ++ ']' :: ' ' :: txt) = some (sp, txt) := by
  have hall : ∀ c ∈ sp, (fun x => decide (x ≠ ']')) c = true := by
    intro c hc
    simp only [decide_eq_true_eq]
    intro he
    exact hbr (he ▸ hc)
  have hstop : (fun x => decide (x ≠ ']')) ']' = false := by decide
  have hdrop : (sp ++ ']' :: ' ' :: txt).dropWhile (fun x => decide (x ≠ ']'))
      = ']' :: ' ' :: txt := dropWhile_append_stop _ sp ']' (' ' :: txt) hall hstop
  have htake : (sp ++ ']' :: ' ' :: txt).takeWhile (fun x => decide (x ≠ ']'))
      = sp := takeWhile_append_stop _ sp ']' (' ' :: txt) hall hstop
  have hdropsp : (' ' :: txt).dropWhile isPySpace = txt := by
    rw [List.dropWhile_cons_of_pos (by decide)]
    exact htxtLead
  have htakenl : txt.takeWhile (fun x => decide (x ≠ '\n')) = txt := by
    refine takeWhile_eq_self_of_all _ txt ?_
    intro c hc
    simp only [decide_eq_true_eq]
    intro he
    exact htxtNl (he ▸ hc)
  simp only [ne_eq, decide_not] at hdrop htake htakenl
  simp [speakerMatch, hdrop, htake, hsp, hdropsp, htakenl]

/-- The timestamp line `generate_srt` emits for a sentence. -/
def tsLineOf (s : Sentence) : Str :=
  seconds_to_srt_time s.start_time ++ strOf " --> " ++ seconds_to_srt_time s.end_time

/-- The text line `generate_srt` emits for a sentence. -/
def taggedTextOf (inc : Bool) (s : Sentence) : Str :=
  if s.speaker ≠ [] ∧ inc = true then '[' :: s.speaker ++ ']' :: ' ' :: pyStrip s.text
  else pyStrip s.text

theorem genAux_cons_emit (inc : Bool) (i : ℕ) (s : Sentence) (rest : List Sentence)
    (h : pyStrip s.text ≠ []) :
    genAux inc i (s :: rest)
      = natStr i :: tsLineOf s :: taggedTextOf inc s :: [] :: genAux inc (i + 1) rest := by
  simp only [genAux, tsLineOf, taggedTextOf]
  rw [if_neg h]

/-- The conditions under which one utterance survives the
serialize-then-parse round trip unchanged (the amendment of claim C1):
trimmed, non-empty, single-line text; a newline-free, bracket-free
speaker; text that does not itself start with a bracket tag when the
speaker is absent; and millisecond-granular times below 100 hours. -/
def RoundTripSafe (s : Sentence) : Prop :=
  pyStrip s.text = s.text ∧ s.text ≠ [] ∧ '\n' ∉ s.text ∧
  ']' ∉ s.speaker ∧ '\n' ∉ s.speaker ∧
  (s.speaker = [] → speakerMatch s.text = none) ∧
  (∃ a : ℕ, a < 360000000 ∧ s.start_time = (a : ℚ) / 1000) ∧
  (∃ b : ℕ, b < 360000000 ∧ s.end_time = (b : ℚ) / 1000)

theorem tsLineOf_eq (s : Sentence) (a b : ℕ) (ha : s.start_time = (a : ℚ) / 1000)
    (hb : s.end_time = (b : ℚ) / 1000) :
    tsLineOf s
      = mkTimestamp (a / 3600000) (a % 3600000 / 60000) (a % 60000 / 1000) (a % 1000)
        ++ strOf " --> "
        ++ mkTimestamp (b / 3600000) (b % 3600000 / 60000) (b % 60000 / 1000) (b % 1000) := by
  rw [tsLineOf, ha, hb, seconds_to_srt_time_msRat, seconds_to_srt_time_msRat]

theorem arrowline_no_nl (h1 m1 s1 ms1 h2 m2 s2 ms2 : ℕ) :
    '\n' ∉ mkTimestamp h1 m1 s1 ms1 ++ strOf " --> " ++ mkTimestamp h2 m2 s2 ms2 := by
  intro hmem
  rcases List.mem_append.mp hmem with h1' | h1'
  · rcases List.mem_append.mp h1' with h2' | h2'
    · exact mkTimestamp_no_nl _ _ _ _ h2'
    · exact absurd h2' (by decide)
  · exact mkTimestamp_no_nl _ _ _ _ h1'

theorem arrowline_not_ws (h1 m1 s1 ms1 h2 m2 s2 ms2 : ℕ) :
    isWsLine (mkTimestamp h1 m1 s1 ms1 ++ strOf " --> " ++ mkTimestamp h2 m2 s2 ms2) = false := by
  refine isWsLine_false_of_mem _ ':' ?_ (by decide)
  exact List.mem_append.mpr (Or.inl (List.mem_append.mpr (Or.inl (mkTimestamp_mem_colon _ _ _ _))))

theorem tagged_trimTrail (inc : Bool) (s : Sentence) (hstrip : pyStrip s.text = s.text)
    (hne : s.text ≠ []) :
    trimTrail (taggedTextOf inc s) = taggedTextOf inc s := by
  have hparts := pyStrip_parts s.text hstrip
  rw [taggedTextOf]
  by_cases hc : s.speaker ≠ [] ∧ inc = true
  · rw [if_pos hc, hstrip]
    have hshape : '[' :: s.speaker ++ ']' :: ' ' :: s.text
        = ('[' :: s.speaker ++ [']', ' ']) ++ s.text := by
      simp
    rw [hshape, trimTrail_append _ _ (by rw [hparts.2]; exact hne), hparts.2]
  · rw [if_neg hc, hstrip]
    exact hparts.2

theorem tagged_no_nl (inc : Bool) (s : Sentence) (hstrip : pyStrip s.text = s.text)
    (htnl : '\n' ∉ s.text) (hsnl : '\n' ∉ s.speaker) :
    '\n' ∉ taggedTextOf inc s := by
  rw [taggedTextOf]
  by_cases hc : s.speaker ≠ [] ∧ inc = true
  · rw [if_pos hc, hstrip]
    intro hmem
    rcases List.mem_cons.mp hmem with heq | hmem
    · exact absurd heq (by decide)
    rcases List.mem_append.mp hmem with h1 | h1
    · exact hsnl h1
    rcases List.mem_cons.mp h1 with heq | h1
    · exact absurd heq (by decide)
    rcases List.mem_cons.mp h1 with heq | h1
    · exact absurd heq (by decide)
    · exact htnl h1
  · rw [if_neg hc, hstrip]
    exact htnl

theorem tagged_not_ws (inc : Bool) (s : Sentence) (hstrip : pyStrip s.text = s.text)
    (hne : s.text ≠ []) : isWsLine (taggedTextOf inc s) = false := by
  rw [taggedTextOf]
  by_cases hc : s.speaker ≠ [] ∧ inc = true
  · rw [if_pos hc]
    exact isWsLine_false_of_mem _ '[' (by simp) (by decide)
  · rw [if_neg hc, hstrip]
    exact not_ws_of_stripped s.text hstrip hne

theorem parseBlock_cue (i : ℕ) (s : Sentence) (hs : RoundTripSafe s) :
    parseBlock [natStr i, tsLineOf s, taggedTextOf true s]
      = some (ParsedSentence.mk ((digitsVal (natStr i) : ℕ) : ℤ) s.start_time s.end_time
          s.text s.speaker (s.end_time - s.start_time)) := by
  obtain ⟨hstrip, hne, hnl, hbr, hspnl, hnotag, ⟨a, ha1, ha2⟩, ⟨b, hb1, hb2⟩⟩ := hs
  have hparts := pyStrip_parts s.text hstrip
  have hsbl : stripBlockLines [natStr i, tsLineOf s, taggedTextOf true s]
      = [natStr i, tsLineOf s, taggedTextOf true s] := by
    simp only [stripBlockLines, stripLastLine]
    rw [trimLead_eq_self _ (natStr_all_not_space i), tagged_trimTrail true s hstrip hne]
  have htl : matchTimeLine (tsLineOf s)
      = some (mkTimestamp (a / 3600000) (a % 3600000 / 60000) (a % 60000 / 1000) (a % 1000),
          mkTimestamp (b / 3600000) (b % 3600000 / 60000) (b % 60000 / 1000) (b % 1000)) := by
    rw [tsLineOf_eq s a b ha2 hb2]
    exact matchTimeLine_fmt _ _ _ _ _ _ _ _ (by omega) (by omega) (by omega) (by omega)
      (by omega) (by omega) (by omega) (by omega)
  have hsa : srt_time_to_seconds
      (mkTimestamp (a / 3600000) (a % 3600000 / 60000) (a % 60000 / 1000) (a % 1000))
      = some s.start_time := by
    rw [srt_time_to_seconds_mk _ _ _ _ (by omega) (by omega) (by omega) (by omega)]
    rw [show a / 3600000 * 3600000 + a % 3600000 / 60000 * 60000 + a % 60000 / 1000 * 1000
        + a % 1000 = a from by omega, ha2]
  have hsb : srt_time_to_seconds
      (mkTimestamp (b / 3600000) (b % 3600000 / 60000) (b % 60000 / 1000) (b % 1000))
      = some s.end_time := by
    rw [srt_time_to_seconds_mk _ _ _ _ (by omega) (by omega) (by omega) (by omega)]
    rw [show b / 3600000 * 3600000 + b % 3600000 / 60000 * 60000 + b % 60000 / 1000 * 1000
        + b % 1000 = b from by omega, hb2]
  have hsm : speakerMatch (taggedTextOf true s)
      = if s.speaker = [] then none else some (s.speaker, s.text) := by
    by_cases hspk : s.speaker = []
    · rw [if_pos hspk, taggedTextOf, if_neg (by simp [hspk]), hstrip]
      exact hnotag hspk
    · rw [if_neg hspk, taggedTextOf, if_pos ⟨hspk, rfl⟩, hstrip]
      exact speakerMatch_tag s.speaker s.text hspk hbr hparts.1 hnl
  simp only [parseBlock, hsbl]
  rw [if_neg (by simp)]
  simp only [List.headD_cons, List.drop_succ_cons, List.drop_zero, pyInt_natStr i, htl, hsa,
    hsb]
  rw [show intercalateCh '\n' [taggedTextOf true s] = taggedTextOf true s from rfl, hsm]
  by_cases hspk : s.speaker = []
  · rw [if_pos hspk]
    rw [show taggedTextOf true s = s.text from by
      rw [taggedTextOf, if_neg (by simp [hspk]), hstrip]]
    rw [hspk]
    rfl
  · rw [if_neg hspk]

/-- The expected block decomposition of a serialized safe transcript. -/
def blocksOf : ℕ → List Sentence → List (List Str)
  | _, [] => []
  | i, s :: rest => [natStr i, tsLineOf s, taggedTextOf true s] :: blocksOf (i + 1) rest

theorem trimLead_natStr_append (n : ℕ) (X : Str) :
    trimLead (natStr n ++ X) = natStr n ++ X := by
  cases hx : natStr n with
  | nil => exact absurd hx (natStr_ne_nil n)
  | cons c cs =>
    rw [List.cons_append]
    exact trimLead_cons_of_neg c _ (natStr_all_not_space n c (by rw [hx]; simp))

theorem splitBlocks_cons_block (a b c : Str) (ls : List Str) (ha : isWsLine a = false)
    (hb : isWsLine b = false) (hc : isWsLine c = false) :
    splitBlocksAux [] (a :: b :: c :: [] :: ls) = [a, b, c] :: splitBlocksAux [] ls := by
  rw [show splitBlocksAux [] (a :: b :: c :: [] :: ls) = splitBlocksAux [a] (b :: c :: [] :: ls)
    from by simp [splitBlocksAux, ha]]
  rw [show splitBlocksAux [a] (b :: c :: [] :: ls) = splitBlocksAux [b, a] (c :: [] :: ls)
    from by simp [splitBlocksAux, hb]]
  rw [show splitBlocksAux [b, a] (c :: [] :: ls) = splitBlocksAux [c, b, a] ([] :: ls)
    from by simp [splitBlocksAux, hc]]
  simp [splitBlocksAux, isWsLine]

theorem splitBlocks_gen :
    ∀ (T : List Sentence) (i : ℕ), (∀ s ∈ T, RoundTripSafe s) →
      splitBlocks (splitOnNl (pyStrip (intercalateCh '\n' (genAux true i T))))
        = blocksOf i T := by
  intro T
  induction T with
  | nil => intro i _; rfl
  | cons s rest ih =>
    intro i hsafe
    obtain ⟨hstrip, hne, hnl, hbr, hspnl, hnotag, ⟨a, ha1, ha2⟩, ⟨b, hb1, hb2⟩⟩ :=
      hsafe s (by simp)
    have hpne : pyStrip s.text ≠ [] := by rw [hstrip]; exact hne
    have hAnl : '\n' ∉ natStr i := natStr_no_nl i
    have hAws : isWsLine (natStr i) = false := natStr_not_ws i
    have hBeq := tsLineOf_eq s a b ha2 hb2
    have hBnl : '\n' ∉ tsLineOf s := by rw [hBeq]; exact arrowline_no_nl _ _ _ _ _ _ _ _
    have hBws : isWsLine (tsLineOf s) = false := by
      rw [hBeq]; exact arrowline_not_ws _ _ _ _ _ _ _ _
    have hCnl : '\n' ∉ taggedTextOf true s := tagged_no_nl true s hstrip hnl hspnl
    have hCws : isWsLine (taggedTextOf true s) = false := tagged_not_ws true s hstrip hne
    have hCtt : trimTrail (taggedTextOf true s) = taggedTextOf true s :=
      tagged_trimTrail true s hstrip hne
    have hCne : taggedTextOf true s ≠ [] := ne_nil_of_not_ws _ hCws
    rw [genAux_cons_emit true i s rest hpne]
    cases rest with
    | nil =>
      have hcontent : intercalateCh '\n'
          (natStr i :: tsLineOf s :: taggedTextOf true s :: [] :: genAux true (i + 1) [])
          = natStr i ++ '\n' :: (tsLineOf s ++ '\n' :: (taggedTextOf true s ++ ['\n'])) := rfl
      rw [hcontent, pyStrip, trimLead_natStr_append]
      rw [show natStr i ++ '\n' :: (tsLineOf s ++ '\n' :: (taggedTextOf true s ++ ['\n']))
          = ((natStr i ++ '\n' :: (tsLineOf s ++ ['\n'])) ++ taggedTextOf true s) ++ ['\n']
        from by simp]
      rw [trimTrail_snoc_ws _ '\n' (by decide)]
      rw [trimTrail_append _ _ (by rw [hCtt]; exact hCne), hCtt]
      rw [show (natStr i ++ '\n' :: (tsLineOf s ++ ['\n'])) ++ taggedTextOf true s
          = natStr i ++ '\n' :: (tsLineOf s ++ '\n' :: taggedTextOf true s) from by simp]
      rw [splitOnNl_append _ _ hAnl, splitOnNl_append _ _ hBnl, splitOnNl_no_nl _ hCnl]
      rw [splitBlocks]
      rw [show splitBlocksAux [] [natStr i, tsLineOf s, taggedTextOf true s]
          = splitBlocksAux [natStr i] [tsLineOf s, taggedTextOf true s]
        from by simp [splitBlocksAux, hAws]]
      rw [show splitBlocksAux [natStr i] [tsLineOf s, taggedTextOf true s]
          = splitBlocksAux [tsLineOf s, natStr i] [taggedTextOf true s]
        from by simp [splitBlocksAux, hBws]]
      rw [show splitBlocksAux [tsLineOf s, natStr i] [taggedTextOf true s]
          = splitBlocksAux [taggedTextOf true s, tsLineOf s, natStr i] []
        from by simp [splitBlocksAux, hCws]]
      rfl
    | cons u ru =>
      have hupne : pyStrip u.text ≠ [] := by
        obtain ⟨hu1, hu2, _⟩ := hsafe u (by simp)
        rw [hu1]; exact hu2
      have hL : genAux true (i + 1) (u :: ru)
          = natStr (i + 1) :: tsLineOf u :: taggedTextOf true u :: []
            :: genAux true (i + 1 + 1) ru := genAux_cons_emit true (i + 1) u ru hupne
      rw [hL]
      have hcontent : intercalateCh '\n'
          (natStr i :: tsLineOf s :: taggedTextOf true s :: []
            :: natStr (i + 1) :: tsLineOf u :: taggedTextOf true u :: []
            :: genAux true (i + 1 + 1) ru)
          = natStr i ++ '\n' :: (tsLineOf s ++ '\n' :: (taggedTextOf true s ++ '\n' :: '\n'
              :: intercalateCh '\n'
                (natStr (i + 1) :: tsLineOf u :: taggedTextOf true u :: []
                  :: genAux true (i + 1 + 1) ru))) := rfl
      rw [hcontent]
      have hR : intercalateCh '\n'
          (natStr (i + 1) :: tsLineOf u :: taggedTextOf true u :: []
            :: genAux true (i + 1 + 1) ru)
          = natStr (i + 1) ++ '\n' :: intercalateCh '\n'
              (tsLineOf u :: taggedTextOf true u :: [] :: genAux true (i + 1 + 1) ru) := rfl
      have hRtrimlead : trimLead (intercalateCh '\n'
          (natStr (i + 1) :: tsLineOf u :: taggedTextOf true u :: []
            :: genAux true (i + 1 + 1) ru))
          = intercalateCh '\n'
              (natStr (i + 1) :: tsLineOf u :: taggedTextOf true u :: []
                :: genAux true (i + 1 + 1) ru) := by
        rw [hR]
        exact trimLead_natStr_append _ _
      have hRne : trimTrail (intercalateCh '\n'
          (natStr (i + 1) :: tsLineOf u :: taggedTextOf true u :: []
            :: genAux true (i + 1 + 1) ru)) ≠ [] := by
        cases hx : natStr (i + 1) with
        | nil => exact absurd hx (natStr_ne_nil _)
        | cons c cs =>
          refine trimTrail_ne_nil_of_mem _ c ?_ ?_
          · rw [show intercalateCh '\n'
                ((c :: cs) :: tsLineOf u :: taggedTextOf true u :: []
                  :: genAux true (i + 1 + 1) ru)
                = (c :: cs) ++ '\n' :: intercalateCh '\n'
                    (tsLineOf u :: taggedTextOf true u :: [] :: genAux true (i + 1 + 1) ru)
              from rfl]
            simp
          · exact natStr_all_not_space (i + 1) c (by rw [hx]; simp)
      rw [pyStrip, trimLead_natStr_append]
      rw [show natStr i ++ '\n' :: (tsLineOf s ++ '\n' :: (taggedTextOf true s ++ '\n' :: '\n'
              :: intercalateCh '\n'
                (natStr (i + 1) :: tsLineOf u :: taggedTextOf true u :: []
                  :: genAux true (i + 1 + 1) ru)))
          = (natStr i ++ '\n' :: (tsLineOf s ++ '\n' :: (taggedTextOf true s ++ ['\n', '\n'])))
            ++ intercalateCh '\n'
                (natStr (i + 1) :: tsLineOf u :: taggedTextOf true u :: []
                  :: genAux true (i + 1 + 1) ru) from by simp]
      rw [trimTrail_append _ _ hRne]
      rw [show (natStr i ++ '\n' :: (tsLineOf s ++ '\n' :: (taggedTextOf true s ++ ['\n', '\n'])))
            ++ trimTrail (intercalateCh '\n'
                (natStr (i + 1) :: tsLineOf u :: taggedTextOf true u :: []
                  :: genAux true (i + 1 + 1) ru))
          = natStr i ++ '\n' :: (tsLineOf s ++ '\n' :: (taggedTextOf true s ++ '\n' :: '\n'
              :: trimTrail (intercalateCh '\n'
                (natStr (i + 1) :: tsLineOf u :: taggedTextOf true u :: []
                  :: genAux true (i + 1 + 1) ru)))) from by simp]
      rw [splitOnNl_append _ _ hAnl, splitOnNl_append _ _ hBnl, splitOnNl_append _ _ hCnl]
      rw [show splitOnNl ('\n' :: trimTrail (intercalateCh '\n'
            (natStr (i + 1) :: tsLineOf u :: taggedTextOf true u :: []
              :: genAux true (i + 1 + 1) ru)))
          = [] :: splitOnNl (trimTrail (intercalateCh '\n'
              (natStr (i + 1) :: tsLineOf u :: taggedTextOf true u :: []
                :: genAux true (i + 1 + 1) ru))) from by simp [splitOnNl]]
      rw [splitBlocks, splitBlocks_cons_block _ _ _ _ hAws hBws hCws]
      have hfinal : splitBlocksAux [] (splitOnNl (trimTrail (intercalateCh '\n'
          (natStr (i + 1) :: tsLineOf u :: taggedTextOf true u :: []
            :: genAux true (i + 1 + 1) ru))))
          = blocksOf (i + 1) (u :: ru) := by
        have := ih (i + 1) fun x hx => hsafe x (by simp [hx])
        rw [genAux_cons_emit true (i + 1) u ru hupne] at this
        rw [show pyStrip (intercalateCh '\n'
            (natStr (i + 1) :: tsLineOf u :: taggedTextOf true u :: []
              :: genAux true (i + 1 + 1) ru))
            = trimTrail (intercalateCh '\n'
              (natStr (i + 1) :: tsLineOf u :: taggedTextOf true u :: []
                :: genAux true (i + 1 + 1) ru)) from by rw [pyStrip, hRtrimlead]] at this
        exact this
      rw [hfinal]
      rfl

/-- The cues a serialized safe transcript parses back to. -/
def expectedParsed : ℕ → List Sentence → List ParsedSentence
  | _, [] => []
  | i, s :: rest =>
    ParsedSentence.mk ((digitsVal (natStr i) : ℕ) : ℤ) s.start_time s.end_time s.text
        s.speaker (s.end_time - s.start_time)
      :: expectedParsed (i + 1) rest

theorem filterMap_blocksOf :
    ∀ (T : List Sentence) (i : ℕ), (∀ s ∈ T, RoundTripSafe s) →
      (blocksOf i T).filterMap parseBlock = expectedParsed i T := by
  intro T
  induction T with
  | nil => intro i _; rfl
  | cons s rest ih =>
    intro i hsafe
    rw [blocksOf, expectedParsed, List.filterMap_cons,
      parseBlock_cue i s (hsafe s (by simp)), ih (i + 1) fun x hx => hsafe x (by simp [hx])]

theorem expectedParsed_proj :
    ∀ (T : List Sentence) (i : ℕ),
      (expectedParsed i T).map projParsed = T.map projSentence := by
  intro T
  induction T with
  | nil => intro i; rfl
  | cons s rest ih =>
    intro i
    simp only [expectedParsed, List.map_cons, ih (i + 1)]
    rfl

/-- C1 amended: the serialize-parse round trip reproduces the transcript
(same ordered utterances with the same start, end, text and speaker)
whenever every utterance is round-trip safe: trimmed, non-empty,
SINGLE-line text (multi-line text is excluded: with a speaker tag the
parser truncates it at the first newline); newline-free, bracket-free
speakers; text not itself starting with a bracket tag when the speaker is
empty; and millisecond-granular times below 100 hours (serialization
truncates to milliseconds and the parser's timestamp pattern requires
two-digit hours). -/
theorem C1_theorem (T : List Sentence) (h : ∀ s ∈ T, RoundTripSafe s) :
    (parse_srt_content (generate_srt true T)).map projParsed = T.map projSentence := by
  rw [parse_srt_content, generate_srt, splitBlocks_gen T 1 h, filterMap_blocksOf T 1 h,
    expectedParsed_proj T 1]

/-- The spec's round-trip test transcript: three utterances, two distinct
speakers, one multi-sentence text. -/
def exC1three : List Sentence :=
  [Sentence.mk 0 1 (strOf "Hello there. How are you?") (strOf "alice"),
   Sentence.mk 1 2 (strOf "Fine.") (strOf "bob"),
   Sentence.mk 2 (5 / 2) (strOf "Good to hear.") (strOf "alice")]

/-- C1 witness: the amended round trip applied to the spec's concrete
three-utterance, two-speaker transcript. -/
theorem C1_witness :
    (parse_srt_content (generate_srt true exC1three)).map projParsed
      = exC1three.map projSentence := by
  refine C1_theorem exC1three ?_
  intro s hs
  rcases List.mem_cons.mp hs with rfl | hs
  · exact ⟨by decide, by decide, by decide, by decide, by decide,
      fun hemp => absurd hemp (by decide),
      ⟨0, by norm_num, by norm_num⟩, ⟨1000, by norm_num, by norm_num⟩⟩
  rcases List.mem_cons.mp hs with rfl | hs
  · exact ⟨by decide, by decide, by decide, by decide, by decide,
      fun hemp => absurd hemp (by decide),
      ⟨1000, by norm_num, by norm_num⟩, ⟨2000, by norm_num, by norm_num⟩⟩
  rcases List.mem_cons.mp hs with rfl | hs
  · exact ⟨by decide, by decide, by decide, by decide, by decide,
      fun hemp => absurd hemp (by decide),
      ⟨2000, by norm_num, by norm_num⟩, ⟨2500, by norm_num, by norm_num⟩⟩
  · exact absurd hs (List.not_mem_nil s)
